import Mathlib

/-!
Verification development for the syso repository: the .rsrc resource-section
builder (package rsrc) and the COFF object-file container (package coff).

Machine integers are modelled as Nat with explicit reduction modulo 2^32
(Go uint32 arithmetic) and 2^16/2^8 inside the little-endian byte encoders.
Byte streams are List Nat (each element a byte value).
-/

/-- Go uint32 addition: wraps modulo 2^32. -/
def add32 (a b : Nat) : Nat := (a + b) % 2 ^ 32

/-- Go uint32 subtraction a - b (wrapping), for a b < 2^32. -/
def sub32 (a b : Nat) : Nat := (a + 2 ^ 32 - b % 2 ^ 32) % 2 ^ 32

/-- Little-endian encoding of a 16-bit value (reduces its argument mod 2^16). -/
def u16le (n : Nat) : List Nat := [n % 256, n / 256 % 256]

/-- Little-endian encoding of a 32-bit value (reduces its argument mod 2^32). -/
def u32le (n : Nat) : List Nat :=
  [n % 256, n / 256 % 256, n / 256 ^ 2 % 256, n / 256 ^ 3 % 256]

theorem u16le_length (n : Nat) : (u16le n).length = 2 := rfl

theorem u32le_length (n : Nat) : (u32le n).length = 4 := rfl

/-- Go's unicode/utf16.Encode on one rune: one code unit for BMP scalars,
a surrogate pair for the rest. -/
def utf16Char (c : Char) : List Nat :=
  if c.toNat < 0x10000 then [c.toNat]
  else [0xD800 + (c.toNat - 0x10000) / 0x400, 0xDC00 + (c.toNat - 0x10000) % 0x400]

/-- Go's utf16.Encode([]rune(s)): UTF-16 code units of a string. -/
def utf16Encode (s : String) : List Nat := s.data.flatMap utf16Char

/-- Number of UTF-16 code units of a string. -/
def utf16Length (s : String) : Nat := (utf16Encode s).length

/-- Record classes named in the error-wrapping of the two WriteTo
implementations (part_000 wraps each failed record write with its class and,
for entry-like records, the index; coff/file.go wraps nothing). -/
inductive WTag where
  | resourceDirectory
  | resourceDirectoryEntry (i : Nat)
  | resourceStringLength (s : String) (n : Nat)
  | resourceString (s : String)
  | resourceDataEntry (i : Nat)
  | resourceData (i : Nat)
deriving Repr, DecidableEq

/-- An error escaping a WriteTo: the destination stream's own error,
possibly wrapped (errors.Wrapf) with a record class. -/
inductive WErr where
  | stream
  | wrap (t : WTag) (e : WErr)
deriving Repr, DecidableEq

/-- One record write: the bytes of the record and the tag the writer wraps
around a failure of this write (none: the error is propagated unwrapped). -/
abbrev Chunk := List Nat × Option WTag

def mkWErr : Option WTag → WErr
  | none => .stream
  | some t => .wrap t .stream

/-- Run a sequence of record writes against a destination that accepts cap
more bytes and then fails (record writes are all-or-nothing).  Returns the
byte count the writer reports, the error if any, and the flushed bytes.
Models the immediate-abort behavior of both WriteTo implementations: the
first failed record write stops everything after it. -/
def execWrites : List Chunk → Nat → Nat × Option WErr × List Nat
  | [], _ => (0, none, [])
  | (b, t) :: rest, cap =>
    if b.length ≤ cap then
      let r := execWrites rest (cap - b.length)
      (b.length + r.1, r.2.1, b ++ r.2.2)
    else (0, some (mkWErr t), [])

/-- Total bytes of a chunk list. -/
def chunkBytes (p : List Chunk) : List Nat := p.flatMap (·.1)

theorem chunkBytes_nil : chunkBytes [] = [] := rfl

theorem chunkBytes_cons (c : Chunk) (p : List Chunk) :
    chunkBytes (c :: p) = c.1 ++ chunkBytes p := rfl

theorem chunkBytes_append (p q : List Chunk) :
    chunkBytes (p ++ q) = chunkBytes p ++ chunkBytes q := by
  simp [chunkBytes]

namespace Rsrc

/-- binary.Size of rawDirectory: characteristics u32 + name-entry count u16 +
id-entry count u16 (spec section 6 record table). -/
def rawDirectorySize : Nat := 8

/-- binary.Size of rawDirectoryEntry: key u32 + target u32. -/
def rawDirectoryEntrySize : Nat := 8

/-- binary.Size of rawDataEntry: data-RVA u32 + size u32
(spec section 6 record table). -/
def rawDataEntrySize : Nat := 8

/-- enUSLanguage, the single fixed language id 0x409. -/
def enUSLanguage : Int := 0x409

/-- A DataEntry: descriptor offset, payload offset, and the payload blob
(a common.Blob is an opaque length-known byte payload; Size is its length). -/
structure DataEntry where
  offset : Nat
  dataOffset : Nat
  blob : List Nat
deriving Repr, DecidableEq

/-- The key of a directory entry: exactly one of integer id or string name.
Modelled from the spec: a name-keyed entry owns its ResourceString (the
directory string pool is the ordered list of its name entries' strings),
carrying the string's assigned section offset. -/
inductive EntryKey where
  | id (i : Int)
  | name (s : String) (strOff : Nat)
deriving Repr, DecidableEq

mutual
/-- Modelled from the spec: the rsrc Directory node (rsrc/directory.go is not
in src): characteristics, assigned offset, and the two ordered entry
collections (name-keyed, id-keyed). -/
inductive Directory where
  | mk (characteristics : Nat) (offset : Nat)
      (nameEntries : List Entry) (idEntries : List Entry)

/-- Modelled from the spec: a DirectoryEntry points to exactly one of a child
Directory or a terminal DataEntry; it carries its assigned record offset. -/
inductive Entry where
  | sub (key : EntryKey) (offset : Nat) (d : Directory)
  | dat (key : EntryKey) (offset : Nat) (de : DataEntry)
end

def Directory.characteristics : Directory → Nat
  | .mk ch _ _ _ => ch

def Directory.offset : Directory → Nat
  | .mk _ o _ _ => o

def Directory.nameEntries : Directory → List Entry
  | .mk _ _ ns _ => ns

def Directory.idEntries : Directory → List Entry
  | .mk _ _ _ is => is

/-- entries(): name-keyed entries then id-keyed entries. -/
def Directory.entries (d : Directory) : List Entry :=
  d.nameEntries ++ d.idEntries

/-- Pool byte size of one directory level: for each name-keyed entry, 2 bytes
of length prefix plus the UTF-16 encoded size of its string. -/
def poolBytes : List Entry → Nat
  | [] => 0
  | .sub (.name s _) _ _ :: es => 2 + 2 * utf16Length s + poolBytes es
  | .dat (.name s _) _ _ :: es => 2 + 2 * utf16Length s + poolBytes es
  | .sub (.id _) _ _ :: es => poolBytes es
  | .dat (.id _) _ _ :: es => poolBytes es

/-- Number of data-targeted entries (dataEntries()) at one directory level. -/
def datCount : List Entry → Nat
  | [] => 0
  | .dat _ _ _ :: es => 1 + datCount es
  | .sub _ _ _ :: es => datCount es

/-- Total payload byte size (datas()) at one directory level. -/
def datBytes : List Entry → Nat
  | [] => 0
  | .dat _ _ de :: es => de.blob.length + datBytes es
  | .sub _ _ _ :: es => datBytes es

mutual
/-- Freeze pass 1 (headers pass): assign each Directory and each of its
entry records an offset, walking the tree parent-first in stored entry
order (spec section 4.2, pass 1).  The walk's cursor reaches the first
child at the parent's offset plus the header record plus one entry record
per entry; the recursion threads that child cursor (coff) alongside the
entry-record cursor (eoff), both with wrapping uint32 increments. -/
def pass1Dir : Directory → Nat → Directory × Nat
  | .mk ch _ ns is, off =>
    let off1 := add32 off rawDirectorySize
    let coff := add32 off1 (rawDirectoryEntrySize * (ns.length + is.length))
    let a := pass1Entries ns off1 coff
    let b := pass1Entries is a.2.1 a.2.2
    (.mk ch off a.1 b.1, b.2.2)

def pass1Entries : List Entry → Nat → Nat → List Entry × Nat × Nat
  | [], eoff, coff => ([], eoff, coff)
  | .sub k _ d :: es, eoff, coff =>
    let r := pass1Dir d coff
    let rs := pass1Entries es (add32 eoff rawDirectoryEntrySize) r.2
    (.sub k eoff r.1 :: rs.1, rs.2)
  | .dat k _ de :: es, eoff, coff =>
    let rs := pass1Entries es (add32 eoff rawDirectoryEntrySize) coff
    (.dat k eoff de :: rs.1, rs.2)
end

mutual
/-- Freeze pass 2 (strings pass): assign every directory's pool strings
their offsets (2 + UTF-16 size each), same walk order as pass 1. -/
def pass2Dir : Directory → Nat → Directory × Nat
  | .mk ch o ns is, off =>
    let coff := add32 off (poolBytes ns + poolBytes is)
    let a := pass2Entries ns off coff
    let b := pass2Entries is a.2.1 a.2.2
    (.mk ch o a.1 b.1, b.2.2)

def pass2Entries : List Entry → Nat → Nat → List Entry × Nat × Nat
  | [], soff, coff => ([], soff, coff)
  | .sub (.name s _) eo d :: es, soff, coff =>
    let r := pass2Dir d coff
    let rs := pass2Entries es (add32 soff (2 + 2 * utf16Length s)) r.2
    (.sub (.name s soff) eo r.1 :: rs.1, rs.2)
  | .sub (.id i) eo d :: es, soff, coff =>
    let r := pass2Dir d coff
    let rs := pass2Entries es soff r.2
    (.sub (.id i) eo r.1 :: rs.1, rs.2)
  | .dat (.name s _) eo de :: es, soff, coff =>
    let rs := pass2Entries es (add32 soff (2 + 2 * utf16Length s)) coff
    (.dat (.name s soff) eo de :: rs.1, rs.2)
  | .dat (.id i) eo de :: es, soff, coff =>
    let rs := pass2Entries es soff coff
    (.dat (.id i) eo de :: rs.1, rs.2)
end

/-- Result of pass 3 on one entry list: updated entries, descriptor cursor,
child cursor, relocations from this level's data entries, and relocations
from the subdirectories. -/
structure Pass3Out where
  entries : List Entry
  doff : Nat
  coff : Nat
  levelRelocs : List Nat
  childRelocs : List Nat

mutual
/-- Freeze pass 3 (data-entry-descriptor pass): assign each DataEntry its
descriptor offset and append one relocation whose virtual address is that
offset; same walk order (a directory's own data entries precede all data
entries of its subdirectories). -/
def pass3Dir : Directory → Nat → Directory × Nat × List Nat
  | .mk ch o ns is, off =>
    let coff := add32 off (rawDataEntrySize * (datCount ns + datCount is))
    let a := pass3Entries ns off coff
    let b := pass3Entries is a.doff a.coff
    (.mk ch o a.entries b.entries, b.coff,
      (a.levelRelocs ++ b.levelRelocs) ++ (a.childRelocs ++ b.childRelocs))

def pass3Entries : List Entry → Nat → Nat → Pass3Out
  | [], doff, coff => ⟨[], doff, coff, [], []⟩
  | .dat k eo de :: es, doff, coff =>
    let rs := pass3Entries es (add32 doff rawDataEntrySize) coff
    ⟨.dat k eo { de with offset := doff } :: rs.entries, rs.doff, rs.coff,
      doff :: rs.levelRelocs, rs.childRelocs⟩
  | .sub k eo d :: es, doff, coff =>
    let r := pass3Dir d coff
    let rs := pass3Entries es doff r.2.1
    ⟨.sub k eo r.1 :: rs.entries, rs.doff, rs.coff,
      rs.levelRelocs, r.2.2 ++ rs.childRelocs⟩
end

mutual
/-- Freeze pass 4 (raw-data pass): assign each payload its offset, advancing
by uint32(payload size); same walk order. -/
def pass4Dir : Directory → Nat → Directory × Nat
  | .mk ch o ns is, off =>
    let coff := add32 off (datBytes ns + datBytes is)
    let a := pass4Entries ns off coff
    let b := pass4Entries is a.2.1 a.2.2
    (.mk ch o a.1 b.1, b.2.2)

def pass4Entries : List Entry → Nat → Nat → List Entry × Nat × Nat
  | [], doff, coff => ([], doff, coff)
  | .dat k eo de :: es, doff, coff =>
    let rs := pass4Entries es (add32 doff de.blob.length) coff
    (.dat k eo { de with dataOffset := doff } :: rs.1, rs.2)
  | .sub k eo d :: es, doff, coff =>
    let r := pass4Dir d coff
    let rs := pass4Entries es doff r.2
    (.sub k eo r.1 :: rs.1, rs.2)
end

/-- The .rsrc Section: root directory plus the relocation list (virtual
addresses) rebuilt by each freeze. -/
structure Section where
  rootDir : Directory
  relocations : List Nat

/-- New(): an empty .rsrc section. -/
def Section.new : Section := ⟨.mk 0 0 [] [], []⟩

/-- freeze(): the four layout passes.  Returns the updated section state
(offset-annotated tree, fresh relocation list) and the final cursor. -/
def freeze (s : Section) : Section × Nat :=
  let a := pass1Dir s.rootDir 0
  let b := pass2Dir a.1 a.2
  let c := pass3Dir b.1 b.2
  let d := pass4Dir c.1 c.2.1
  (⟨d.1, c.2.2⟩, d.2)

/-- Size(): the final freeze cursor. -/
def Section.size (s : Section) : Nat := (freeze s).2

/-- Relocations(): freeze, then return the relocation list. -/
def Section.relocationList (s : Section) : List Nat := (freeze s).1.relocations

/-- The on-disk key field of a directory entry: the raw integer id
(uint32-converted), or the string offset with bit 31 set. -/
def entryKeyField : Entry → Nat
  | .sub (.name _ so) _ _ => Nat.lor so 0x80000000
  | .dat (.name _ so) _ _ => Nat.lor so 0x80000000
  | .sub (.id i) _ _ => (i.emod (2 ^ 32)).toNat
  | .dat (.id i) _ _ => (i.emod (2 ^ 32)).toNat

/-- The on-disk target field of a directory entry: the data-entry offset,
or the subdirectory offset with bit 31 set. -/
def entryTargetField : Entry → Nat
  | .sub _ _ d => Nat.lor d.offset 0x80000000
  | .dat _ _ de => de.offset

/-- The rawDirectoryEntry records of one directory, indexed from i. -/
def entryRecordsFrom (i : Nat) : List Entry → List Chunk
  | [] => []
  | e :: es =>
    (u32le (entryKeyField e) ++ u32le (entryTargetField e),
      some (.resourceDirectoryEntry i)) :: entryRecordsFrom (i + 1) es

mutual
/-- WriteTo walk 1: each directory's rawDirectory record followed by its
rawDirectoryEntry records, then the subdirectories. -/
def plan1Dir : Directory → List Chunk
  | .mk ch _ ns is =>
    (u32le ch ++ u16le ns.length ++ u16le is.length, some .resourceDirectory)
      :: (entryRecordsFrom 0 (ns ++ is) ++ (plan1Entries ns ++ plan1Entries is))

def plan1Entries : List Entry → List Chunk
  | [] => []
  | .sub _ _ d :: es => plan1Dir d ++ plan1Entries es
  | .dat _ _ _ :: es => plan1Entries es
end

/-- The two record writes of one resource string: its UTF-16 code-unit
count, then the code units, each little-endian. -/
def stringChunks (s : String) : List Chunk :=
  [(u16le (utf16Encode s).length,
      some (.resourceStringLength s (utf16Encode s).length)),
    ((utf16Encode s).flatMap u16le, some (.resourceString s))]

/-- The string records of one directory's pool. -/
def stringRecords : List Entry → List Chunk
  | [] => []
  | .sub (.name s _) _ _ :: es => stringChunks s ++ stringRecords es
  | .dat (.name s _) _ _ :: es => stringChunks s ++ stringRecords es
  | .sub (.id _) _ _ :: es => stringRecords es
  | .dat (.id _) _ _ :: es => stringRecords es

mutual
/-- WriteTo walk 2: every directory's pool strings, same walk order. -/
def plan2Dir : Directory → List Chunk
  | .mk _ _ ns is =>
    stringRecords (ns ++ is) ++ (plan2Entries ns ++ plan2Entries is)

def plan2Entries : List Entry → List Chunk
  | [] => []
  | .sub _ _ d :: es => plan2Dir d ++ plan2Entries es
  | .dat _ _ _ :: es => plan2Entries es
end

/-- The rawDataEntry records (payload offset and uint32 size) of one
directory's data entries, indexed from i. -/
def dataEntryRecordsFrom (i : Nat) : List Entry → List Chunk
  | [] => []
  | .dat _ _ de :: es =>
    (u32le de.dataOffset ++ u32le de.blob.length, some (.resourceDataEntry i))
      :: dataEntryRecordsFrom (i + 1) es
  | .sub _ _ _ :: es => dataEntryRecordsFrom i es

mutual
/-- WriteTo walk 3: every directory's rawDataEntry records, same walk order. -/
def plan3Dir : Directory → List Chunk
  | .mk _ _ ns is =>
    dataEntryRecordsFrom 0 (ns ++ is) ++ (plan3Entries ns ++ plan3Entries is)

def plan3Entries : List Entry → List Chunk
  | [] => []
  | .sub _ _ d :: es => plan3Dir d ++ plan3Entries es
  | .dat _ _ _ :: es => plan3Entries es
end

/-- The raw payload copies (io.CopyN of each blob) of one directory's data
entries, indexed from i. -/
def dataRecordsFrom (i : Nat) : List Entry → List Chunk
  | [] => []
  | .dat _ _ de :: es => (de.blob, some (.resourceData i)) :: dataRecordsFrom (i + 1) es
  | .sub _ _ _ :: es => dataRecordsFrom i es

mutual
/-- WriteTo walk 4: every directory's raw payloads, same walk order. -/
def plan4Dir : Directory → List Chunk
  | .mk _ _ ns is =>
    dataRecordsFrom 0 (ns ++ is) ++ (plan4Entries ns ++ plan4Entries is)

def plan4Entries : List Entry → List Chunk
  | [] => []
  | .sub _ _ d :: es => plan4Dir d ++ plan4Entries es
  | .dat _ _ _ :: es => plan4Entries es
end

/-- WriteTo: freeze, then the four write walks in order. -/
def rsrcPlan (s : Section) : List Chunk :=
  let t := (freeze s).1.rootDir
  plan1Dir t ++ plan2Dir t ++ plan3Dir t ++ plan4Dir t

/-- The bytes a successful WriteTo produces. -/
def writeToBytes (s : Section) : List Nat := (rsrcPlan s).flatMap (·.1)

/-- WriteTo against a destination accepting cap bytes: reported byte count,
error, flushed bytes. -/
def Section.writeTo (s : Section) (cap : Nat) : Nat × Option WErr × List Nat :=
  execWrites (rsrcPlan s) cap

/-- The language-level directory a single add builds: one id-keyed data
entry under the fixed en-US language id. -/
def langDir (blob : List Nat) : Directory :=
  .mk 0 0 [] [.dat (.id enUSLanguage) 0 ⟨0, 0, blob⟩]

/-- Append the new key-level entry to the Type directory: into nameEntries
for a name key, into idEntries for an id key. -/
def appendKeyEntry (byName : Bool) (ke : Entry) : Directory → Directory
  | .mk ch o ns is => if byName then .mk ch o (ns ++ [ke]) is else .mk ch o ns (is ++ [ke])

/-- True if this root-level entry's integer id matches the type key. -/
def typeMatches (typ : Int) : Entry → Bool
  | .sub (.id i) _ _ => i == typ
  | .dat (.id i) _ _ => i == typ
  | _ => false

def isDatEntry : Entry → Bool
  | .dat _ _ _ => true
  | .sub _ _ _ => false

/-- Update one entry if it is the id-keyed Type entry being matched:
replace its subdirectory by f of it. -/
def updEntryIfType (typ : Int) (f : Directory → Directory) : Entry → Option Entry
  | .sub (.id i) eo d => if i == typ then some (.sub (.id i) eo (f d)) else none
  | _ => none

/-- Apply f to the subdirectory of the last id-keyed entry matching typ
(the loop in addResource keeps the last match); none if no entry matches. -/
def addToLastMatchingType (typ : Int) (f : Directory → Directory) :
    List Entry → Option (List Entry)
  | [] => none
  | e :: es =>
    match addToLastMatchingType typ f es with
    | some es' => some (e :: es')
    | none =>
      match updEntryIfType typ f e with
      | some e' => some (e' :: es)
      | none => none

/-- addResource: locate or create the id-keyed Type directory, then append a
key-level subdirectory holding a single language-level data entry.  Fails
with the internal-consistency error when a matching Type entry is terminal. -/
def Section.addResource (s : Section) (typ : Int) (id : Option Int)
    (name : Option String) (blob : List Nat) : Except String Section :=
  let root := s.rootDir
  if root.idEntries.any fun e => typeMatches typ e && isDatEntry e then
    .error "subdirectory should exist"
  else
    let ke : Entry :=
      match id, name with
      | some i, _ => .sub (.id i) 0 (langDir blob)
      | none, some n => .sub (.name n 0) 0 (langDir blob)
      | none, none => .sub (.id 0) 0 (langDir blob)
    let byName := id.isNone
    match addToLastMatchingType typ (appendKeyEntry byName ke) root.idEntries with
    | some is' =>
      .ok ⟨.mk root.characteristics root.offset root.nameEntries is', s.relocations⟩
    | none =>
      .ok ⟨.mk root.characteristics root.offset root.nameEntries
        (root.idEntries ++ [.sub (.id typ) 0 (appendKeyEntry byName ke (.mk 0 0 [] []))]),
        s.relocations⟩

/-- AddResourceByID. -/
def Section.addResourceByID (s : Section) (typ id : Int) (blob : List Nat) :
    Except String Section :=
  s.addResource typ (some id) none blob

/-- AddResourceByName. -/
def Section.addResourceByName (s : Section) (typ : Int) (name : String)
    (blob : List Nat) : Except String Section :=
  s.addResource typ none (some name) blob

/-- True if the level-2 entry carries the integer id. -/
def entryIdIs (id : Int) : Entry → Bool
  | .sub (.id i) _ _ => i == id
  | .dat (.id i) _ _ => i == id
  | _ => false

/-- True if the level-2 entry carries the name. -/
def entryNameIs (n : String) : Entry → Bool
  | .sub (.name s _) _ _ => s == n
  | .dat (.name s _) _ _ => s == n
  | _ => false

/-- True if the Type entry references a subdirectory holding the id among
its immediate id entries. -/
def hasIdBelow (id : Int) : Entry → Bool
  | .sub _ _ d => d.idEntries.any (entryIdIs id)
  | .dat _ _ _ => false

/-- True if the Type entry references a subdirectory holding the name among
its immediate name entries. -/
def hasNameBelow (name : String) : Entry → Bool
  | .sub _ _ d => d.nameEntries.any (entryNameIs name)
  | .dat _ _ _ => false

/-- ResourceIDExists: scan every Type entry's subdirectory's id entries. -/
def Section.resourceIDExists (s : Section) (id : Int) : Bool :=
  s.rootDir.idEntries.any (hasIdBelow id)

/-- ResourceNameExists: scan every Type entry's subdirectory's name entries. -/
def Section.resourceNameExists (s : Section) (name : String) : Bool :=
  s.rootDir.idEntries.any (hasNameBelow name)

/-- One public add operation. -/
inductive ResOp where
  | byID (typ id : Int) (blob : List Nat)
  | byName (typ : Int) (name : String) (blob : List Nat)

/-- Apply one add operation; a failed add leaves the section unchanged
(addResource errors before any mutation). -/
def applyOp (s : Section) (op : ResOp) : Section :=
  match op with
  | .byID t i b => match s.addResourceByID t i b with | .ok s' => s' | .error _ => s
  | .byName t n b => match s.addResourceByName t n b with | .ok s' => s' | .error _ => s

/-- The section built by a sequence of add operations on a new section. -/
def runOps (ops : List ResOp) : Section := ops.foldl applyOp Section.new

mutual
/-- Exact (unwrapped) byte size of the pass-1 region of a directory. -/
def len1Dir : Directory → Nat
  | .mk _ _ ns is =>
    rawDirectorySize + rawDirectoryEntrySize * (ns.length + is.length)
      + (len1Entries ns + len1Entries is)

def len1Entries : List Entry → Nat
  | [] => 0
  | .sub _ _ d :: es => len1Dir d + len1Entries es
  | .dat _ _ _ :: es => len1Entries es
end

mutual
/-- Exact byte size of the pass-2 (strings) region of a directory. -/
def len2Dir : Directory → Nat
  | .mk _ _ ns is => (poolBytes ns + poolBytes is) + (len2Entries ns + len2Entries is)

def len2Entries : List Entry → Nat
  | [] => 0
  | .sub _ _ d :: es => len2Dir d + len2Entries es
  | .dat _ _ _ :: es => len2Entries es
end

mutual
/-- Exact byte size of the pass-3 (data-entry descriptors) region. -/
def len3Dir : Directory → Nat
  | .mk _ _ ns is =>
    rawDataEntrySize * (datCount ns + datCount is) + (len3Entries ns + len3Entries is)

def len3Entries : List Entry → Nat
  | [] => 0
  | .sub _ _ d :: es => len3Dir d + len3Entries es
  | .dat _ _ _ :: es => len3Entries es
end

mutual
/-- Exact byte size of the pass-4 (raw payloads) region. -/
def len4Dir : Directory → Nat
  | .mk _ _ ns is => (datBytes ns + datBytes is) + (len4Entries ns + len4Entries is)

def len4Entries : List Entry → Nat
  | [] => 0
  | .sub _ _ d :: es => len4Dir d + len4Entries es
  | .dat _ _ _ :: es => len4Entries es
end

theorem add32_lt (a b : Nat) : add32 a b < 2 ^ 32 :=
  Nat.mod_lt _ (by norm_num)

mutual
theorem pass1Dir_cursor (d : Directory) (off : Nat) (h : off < 2 ^ 32) :
    (pass1Dir d off).2 = (off + len1Dir d) % 2 ^ 32 := by
  match d with
  | .mk ch o ns is =>
    have h1 := pass1Entries_cursor ns (add32 off rawDirectorySize)
      (add32 (add32 off rawDirectorySize) (rawDirectoryEntrySize * (ns.length + is.length)))
      (add32_lt _ _)
    have h2 := pass1Entries_cursor is
      (pass1Entries ns (add32 off rawDirectorySize)
        (add32 (add32 off rawDirectorySize)
          (rawDirectoryEntrySize * (ns.length + is.length)))).2.1
      (pass1Entries ns (add32 off rawDirectorySize)
        (add32 (add32 off rawDirectorySize)
          (rawDirectoryEntrySize * (ns.length + is.length)))).2.2
      (by rw [h1]; exact Nat.mod_lt _ (by norm_num))
    simp only [pass1Dir]
    rw [h2, h1]
    simp only [len1Dir, add32, rawDirectorySize, rawDirectoryEntrySize, Nat.mod_add_mod]
    omega

theorem pass1Entries_cursor (es : List Entry) (eoff coff : Nat) (h : coff < 2 ^ 32) :
    (pass1Entries es eoff coff).2.2 = (coff + len1Entries es) % 2 ^ 32 := by
  match es with
  | [] => simpa [pass1Entries, len1Entries] using (Nat.mod_eq_of_lt h).symm
  | .sub k eo d :: rest =>
    have hd := pass1Dir_cursor d coff h
    have ht := pass1Entries_cursor rest (add32 eoff rawDirectoryEntrySize)
      (pass1Dir d coff).2 (by rw [hd]; exact Nat.mod_lt _ (by norm_num))
    simp only [pass1Entries]
    rw [ht, hd]
    simp only [len1Entries, Nat.mod_add_mod]
    omega
  | .dat k eo de :: rest =>
    have ht := pass1Entries_cursor rest (add32 eoff rawDirectoryEntrySize) coff h
    simp only [pass1Entries, len1Entries, ht]
end

mutual
theorem pass2Dir_cursor (d : Directory) (off : Nat) (h : off < 2 ^ 32) :
    (pass2Dir d off).2 = (off + len2Dir d) % 2 ^ 32 := by
  match d with
  | .mk ch o ns is =>
    have h1 := pass2Entries_cursor ns off (add32 off (poolBytes ns + poolBytes is))
      (add32_lt _ _)
    have h2 := pass2Entries_cursor is
      (pass2Entries ns off (add32 off (poolBytes ns + poolBytes is))).2.1
      (pass2Entries ns off (add32 off (poolBytes ns + poolBytes is))).2.2
      (by rw [h1]; exact Nat.mod_lt _ (by norm_num))
    simp only [pass2Dir]
    rw [h2, h1]
    simp only [len2Dir, add32, Nat.mod_add_mod]
    omega

theorem pass2Entries_cursor (es : List Entry) (soff coff : Nat) (h : coff < 2 ^ 32) :
    (pass2Entries es soff coff).2.2 = (coff + len2Entries es) % 2 ^ 32 := by
  match es with
  | [] => simpa [pass2Entries, len2Entries] using (Nat.mod_eq_of_lt h).symm
  | .sub (.name s so) eo d :: rest =>
    have hd := pass2Dir_cursor d coff h
    have ht := pass2Entries_cursor rest (add32 soff (2 + 2 * utf16Length s))
      (pass2Dir d coff).2 (by rw [hd]; exact Nat.mod_lt _ (by norm_num))
    simp only [pass2Entries]
    rw [ht, hd]
    simp only [len2Entries, Nat.mod_add_mod]
    omega
  | .sub (.id i) eo d :: rest =>
    have hd := pass2Dir_cursor d coff h
    have ht := pass2Entries_cursor rest soff
      (pass2Dir d coff).2 (by rw [hd]; exact Nat.mod_lt _ (by norm_num))
    simp only [pass2Entries]
    rw [ht, hd]
    simp only [len2Entries, Nat.mod_add_mod]
    omega
  | .dat (.name s so) eo de :: rest =>
    have ht := pass2Entries_cursor rest (add32 soff (2 + 2 * utf16Length s)) coff h
    simp only [pass2Entries, len2Entries, ht]
  | .dat (.id i) eo de :: rest =>
    have ht := pass2Entries_cursor rest soff coff h
    simp only [pass2Entries, len2Entries, ht]
end

mutual
theorem pass3Dir_cursor (d : Directory) (off : Nat) (h : off < 2 ^ 32) :
    (pass3Dir d off).2.1 = (off + len3Dir d) % 2 ^ 32 := by
  match d with
  | .mk ch o ns is =>
    have h1 := pass3Entries_cursor ns off
      (add32 off (rawDataEntrySize * (datCount ns + datCount is))) (add32_lt _ _)
    have h2 := pass3Entries_cursor is
      (pass3Entries ns off (add32 off (rawDataEntrySize * (datCount ns + datCount is)))).doff
      (pass3Entries ns off (add32 off (rawDataEntrySize * (datCount ns + datCount is)))).coff
      (by rw [h1]; exact Nat.mod_lt _ (by norm_num))
    simp only [pass3Dir]
    rw [h2, h1]
    simp only [len3Dir, add32, rawDataEntrySize, Nat.mod_add_mod]
    omega

theorem pass3Entries_cursor (es : List Entry) (doff coff : Nat) (h : coff < 2 ^ 32) :
    (pass3Entries es doff coff).coff = (coff + len3Entries es) % 2 ^ 32 := by
  match es with
  | [] => simpa [pass3Entries, len3Entries] using (Nat.mod_eq_of_lt h).symm
  | .dat k eo de :: rest =>
    have ht := pass3Entries_cursor rest (add32 doff rawDataEntrySize) coff h
    simp only [pass3Entries, len3Entries, ht]
  | .sub k eo d :: rest =>
    have hd := pass3Dir_cursor d coff h
    have ht := pass3Entries_cursor rest doff
      (pass3Dir d coff).2.1 (by rw [hd]; exact Nat.mod_lt _ (by norm_num))
    simp only [pass3Entries]
    rw [ht, hd]
    simp only [len3Entries, Nat.mod_add_mod]
    omega
end

mutual
theorem pass4Dir_cursor (d : Directory) (off : Nat) (h : off < 2 ^ 32) :
    (pass4Dir d off).2 = (off + len4Dir d) % 2 ^ 32 := by
  match d with
  | .mk ch o ns is =>
    have h1 := pass4Entries_cursor ns off (add32 off (datBytes ns + datBytes is))
      (add32_lt _ _)
    have h2 := pass4Entries_cursor is
      (pass4Entries ns off (add32 off (datBytes ns + datBytes is))).2.1
      (pass4Entries ns off (add32 off (datBytes ns + datBytes is))).2.2
      (by rw [h1]; exact Nat.mod_lt _ (by norm_num))
    simp only [pass4Dir]
    rw [h2, h1]
    simp only [len4Dir, add32, Nat.mod_add_mod]
    omega

theorem pass4Entries_cursor (es : List Entry) (doff coff : Nat) (h : coff < 2 ^ 32) :
    (pass4Entries es doff coff).2.2 = (coff + len4Entries es) % 2 ^ 32 := by
  match es with
  | [] => simpa [pass4Entries, len4Entries] using (Nat.mod_eq_of_lt h).symm
  | .dat k eo de :: rest =>
    have ht := pass4Entries_cursor rest (add32 doff de.blob.length) coff h
    simp only [pass4Entries, len4Entries, ht]
  | .sub k eo d :: rest =>
    have hd := pass4Dir_cursor d coff h
    have ht := pass4Entries_cursor rest doff
      (pass4Dir d coff).2 (by rw [hd]; exact Nat.mod_lt _ (by norm_num))
    simp only [pass4Entries]
    rw [ht, hd]
    simp only [len4Entries, Nat.mod_add_mod]
    omega
end

theorem poolBytes_append (a b : List Entry) :
    poolBytes (a ++ b) = poolBytes a + poolBytes b := by
  induction a with
  | nil => simp [poolBytes]
  | cons e rest ih =>
    match e with
    | .sub (.name s so) eo d => simp [poolBytes, ih]; omega
    | .dat (.name s so) eo de => simp [poolBytes, ih]; omega
    | .sub (.id i) eo d => simp [poolBytes, ih]
    | .dat (.id i) eo de => simp [poolBytes, ih]

theorem datCount_append (a b : List Entry) :
    datCount (a ++ b) = datCount a + datCount b := by
  induction a with
  | nil => simp [datCount]
  | cons e rest ih =>
    match e with
    | .sub k eo d => simp [datCount, ih]
    | .dat k eo de => simp [datCount, ih]; omega

theorem datBytes_append (a b : List Entry) :
    datBytes (a ++ b) = datBytes a + datBytes b := by
  induction a with
  | nil => simp [datBytes]
  | cons e rest ih =>
    match e with
    | .sub k eo d => simp [datBytes, ih]
    | .dat k eo de => simp [datBytes, ih]; omega

theorem entryRecordsFrom_bytes_length (es : List Entry) (i : Nat) :
    (chunkBytes (entryRecordsFrom i es)).length = rawDirectoryEntrySize * es.length := by
  induction es generalizing i with
  | nil => simp [entryRecordsFrom, chunkBytes]
  | cons e rest ih =>
    simp only [entryRecordsFrom, chunkBytes_cons, List.length_append, List.length_cons, ih]
    simp [u32le, rawDirectoryEntrySize, Nat.mul_add]
    omega

theorem utf16_flat_length (l : List Nat) : (l.flatMap u16le).length = 2 * l.length := by
  induction l with
  | nil => simp
  | cons x xs ih => simp [ih, u16le, Nat.mul_add]

theorem stringChunks_bytes_length (s : String) :
    (chunkBytes (stringChunks s)).length = 2 + 2 * utf16Length s := by
  simp only [stringChunks, chunkBytes, List.flatMap_cons, List.flatMap_nil,
    List.append_nil, List.length_append, utf16_flat_length, utf16Length]
  simp [u16le]

theorem stringRecords_bytes_length (es : List Entry) :
    (chunkBytes (stringRecords es)).length = poolBytes es := by
  induction es with
  | nil => simp [stringRecords, chunkBytes, poolBytes]
  | cons e rest ih =>
    match e with
    | .sub (.name s so) eo d =>
      simp only [stringRecords, poolBytes, chunkBytes_append, List.length_append,
        stringChunks_bytes_length, ih]
    | .dat (.name s so) eo de =>
      simp only [stringRecords, poolBytes, chunkBytes_append, List.length_append,
        stringChunks_bytes_length, ih]
    | .sub (.id i) eo d => simp [stringRecords, poolBytes, ih]
    | .dat (.id i) eo de => simp [stringRecords, poolBytes, ih]

theorem dataEntryRecordsFrom_bytes_length (es : List Entry) (i : Nat) :
    (chunkBytes (dataEntryRecordsFrom i es)).length = rawDataEntrySize * datCount es := by
  induction es generalizing i with
  | nil => simp [dataEntryRecordsFrom, chunkBytes, datCount]
  | cons e rest ih =>
    match e with
    | .dat k eo de =>
      simp only [dataEntryRecordsFrom, datCount, chunkBytes_cons, List.length_append, ih]
      simp [u32le, rawDataEntrySize, Nat.mul_add, Nat.mul_comm]
    | .sub k eo d => simp [dataEntryRecordsFrom, datCount, ih]

theorem dataRecordsFrom_bytes_length (es : List Entry) (i : Nat) :
    (chunkBytes (dataRecordsFrom i es)).length = datBytes es := by
  induction es generalizing i with
  | nil => simp [dataRecordsFrom, chunkBytes, datBytes]
  | cons e rest ih =>
    match e with
    | .dat k eo de =>
      simp only [dataRecordsFrom, datBytes, chunkBytes_cons, List.length_append, ih]
    | .sub k eo d => simp [dataRecordsFrom, datBytes, ih]

mutual
theorem plan1Dir_bytes_length (d : Directory) :
    (chunkBytes (plan1Dir d)).length = len1Dir d := by
  match d with
  | .mk ch o ns is =>
    have h1 := plan1Entries_bytes_length ns
    have h2 := plan1Entries_bytes_length is
    simp only [plan1Dir, len1Dir, chunkBytes_cons, chunkBytes_append,
      List.length_append, entryRecordsFrom_bytes_length, h1, h2]
    simp [u32le, u16le, rawDirectorySize, rawDirectoryEntrySize]
    omega

theorem plan1Entries_bytes_length (es : List Entry) :
    (chunkBytes (plan1Entries es)).length = len1Entries es := by
  match es with
  | [] => simp [plan1Entries, len1Entries, chunkBytes]
  | .sub k eo d :: rest =>
    have hd := plan1Dir_bytes_length d
    have ht := plan1Entries_bytes_length rest
    simp only [plan1Entries, len1Entries, chunkBytes_append, List.length_append, hd, ht]
  | .dat k eo de :: rest =>
    have ht := plan1Entries_bytes_length rest
    simp only [plan1Entries, len1Entries, ht]
end

mutual
theorem plan2Dir_bytes_length (d : Directory) :
    (chunkBytes (plan2Dir d)).length = len2Dir d := by
  match d with
  | .mk ch o ns is =>
    have h1 := plan2Entries_bytes_length ns
    have h2 := plan2Entries_bytes_length is
    simp only [plan2Dir, len2Dir, chunkBytes_append, List.length_append,
      stringRecords_bytes_length, h1, h2]
    rw [poolBytes_append]

theorem plan2Entries_bytes_length (es : List Entry) :
    (chunkBytes (plan2Entries es)).length = len2Entries es := by
  match es with
  | [] => simp [plan2Entries, len2Entries, chunkBytes]
  | .sub k eo d :: rest =>
    have hd := plan2Dir_bytes_length d
    have ht := plan2Entries_bytes_length rest
    simp only [plan2Entries, len2Entries, chunkBytes_append, List.length_append, hd, ht]
  | .dat k eo de :: rest =>
    have ht := plan2Entries_bytes_length rest
    simp only [plan2Entries, len2Entries, ht]
end

mutual
theorem plan3Dir_bytes_length (d : Directory) :
    (chunkBytes (plan3Dir d)).length = len3Dir d := by
  match d with
  | .mk ch o ns is =>
    have h1 := plan3Entries_bytes_length ns
    have h2 := plan3Entries_bytes_length is
    simp only [plan3Dir, len3Dir, chunkBytes_append, List.length_append,
      dataEntryRecordsFrom_bytes_length, h1, h2]
    rw [datCount_append]

theorem plan3Entries_bytes_length (es : List Entry) :
    (chunkBytes (plan3Entries es)).length = len3Entries es := by
  match es with
  | [] => simp [plan3Entries, len3Entries, chunkBytes]
  | .sub k eo d :: rest =>
    have hd := plan3Dir_bytes_length d
    have ht := plan3Entries_bytes_length rest
    simp only [plan3Entries, len3Entries, chunkBytes_append, List.length_append, hd, ht]
  | .dat k eo de :: rest =>
    have ht := plan3Entries_bytes_length rest
    simp only [plan3Entries, len3Entries, ht]
end

mutual
theorem plan4Dir_bytes_length (d : Directory) :
    (chunkBytes (plan4Dir d)).length = len4Dir d := by
  match d with
  | .mk ch o ns is =>
    have h1 := plan4Entries_bytes_length ns
    have h2 := plan4Entries_bytes_length is
    simp only [plan4Dir, len4Dir, chunkBytes_append, List.length_append,
      dataRecordsFrom_bytes_length, h1, h2]
    rw [datBytes_append]

theorem plan4Entries_bytes_length (es : List Entry) :
    (chunkBytes (plan4Entries es)).length = len4Entries es := by
  match es with
  | [] => simp [plan4Entries, len4Entries, chunkBytes]
  | .sub k eo d :: rest =>
    have hd := plan4Dir_bytes_length d
    have ht := plan4Entries_bytes_length rest
    simp only [plan4Entries, len4Entries, chunkBytes_append, List.length_append, hd, ht]
  | .dat k eo de :: rest =>
    have ht := plan4Entries_bytes_length rest
    simp only [plan4Entries, len4Entries, ht]
end

/-- Key with its string offset zeroed. -/
def erKey : EntryKey → EntryKey
  | .id i => .id i
  | .name s _ => .name s 0

mutual
/-- The shape of a tree: every offset annotation zeroed. -/
def erDir : Directory → Directory
  | .mk ch _ ns is => .mk ch 0 (erEntries ns) (erEntries is)

def erEntries : List Entry → List Entry
  | [] => []
  | .sub k _ d :: es => .sub (erKey k) 0 (erDir d) :: erEntries es
  | .dat k _ de :: es => .dat (erKey k) 0 ⟨0, 0, de.blob⟩ :: erEntries es
end

mutual
/-- Zero the annotations passes 2, 3 and 4 write (string offsets, descriptor
offsets, payload offsets), keeping pass-1 offsets. -/
def er234Dir : Directory → Directory
  | .mk ch o ns is => .mk ch o (er234Entries ns) (er234Entries is)

def er234Entries : List Entry → List Entry
  | [] => []
  | .sub k eo d :: es => .sub (erKey k) eo (er234Dir d) :: er234Entries es
  | .dat k eo de :: es => .dat (erKey k) eo ⟨0, 0, de.blob⟩ :: er234Entries es
end

mutual
/-- Zero the annotations passes 3 and 4 write. -/
def er34Dir : Directory → Directory
  | .mk ch o ns is => .mk ch o (er34Entries ns) (er34Entries is)

def er34Entries : List Entry → List Entry
  | [] => []
  | .sub k eo d :: es => .sub k eo (er34Dir d) :: er34Entries es
  | .dat k eo de :: es => .dat k eo ⟨0, 0, de.blob⟩ :: er34Entries es
end

mutual
/-- Zero the annotations pass 4 writes. -/
def er4Dir : Directory → Directory
  | .mk ch o ns is => .mk ch o (er4Entries ns) (er4Entries is)

def er4Entries : List Entry → List Entry
  | [] => []
  | .sub k eo d :: es => .sub k eo (er4Dir d) :: er4Entries es
  | .dat k eo de :: es => .dat k eo ⟨de.offset, 0, de.blob⟩ :: er4Entries es
end

theorem erKey_idem (k : EntryKey) : erKey (erKey k) = erKey k := by
  cases k <;> simp [erKey]

theorem erEntries_length (es : List Entry) : (erEntries es).length = es.length := by
  induction es with
  | nil => simp [erEntries]
  | cons e rest ih => cases e <;> simp [erEntries, ih]

theorem er234Entries_length (es : List Entry) :
    (er234Entries es).length = es.length := by
  induction es with
  | nil => simp [er234Entries]
  | cons e rest ih => cases e <;> simp [er234Entries, ih]

theorem poolBytes_erEntries (es : List Entry) : poolBytes (erEntries es) = poolBytes es := by
  induction es with
  | nil => simp [erEntries]
  | cons e rest ih =>
    match e with
    | .sub (.name s so) eo d => simp [erEntries, erKey, poolBytes, ih]
    | .dat (.name s so) eo de => simp [erEntries, erKey, poolBytes, ih]
    | .sub (.id i) eo d => simp [erEntries, erKey, poolBytes, ih]
    | .dat (.id i) eo de => simp [erEntries, erKey, poolBytes, ih]

theorem poolBytes_er234Entries (es : List Entry) :
    poolBytes (er234Entries es) = poolBytes es := by
  induction es with
  | nil => simp [er234Entries]
  | cons e rest ih =>
    match e with
    | .sub (.name s so) eo d => simp [er234Entries, erKey, poolBytes, ih]
    | .dat (.name s so) eo de => simp [er234Entries, erKey, poolBytes, ih]
    | .sub (.id i) eo d => simp [er234Entries, erKey, poolBytes, ih]
    | .dat (.id i) eo de => simp [er234Entries, erKey, poolBytes, ih]

theorem datCount_erEntries (es : List Entry) : datCount (erEntries es) = datCount es := by
  induction es with
  | nil => simp [erEntries]
  | cons e rest ih => cases e <;> simp [erEntries, datCount, ih]

theorem datCount_er34Entries (es : List Entry) :
    datCount (er34Entries es) = datCount es := by
  induction es with
  | nil => simp [er34Entries]
  | cons e rest ih => cases e <;> simp [er34Entries, datCount, ih]

theorem datBytes_erEntries (es : List Entry) : datBytes (erEntries es) = datBytes es := by
  induction es with
  | nil => simp [erEntries]
  | cons e rest ih => cases e <;> simp [erEntries, datBytes, ih]

theorem datBytes_er4Entries (es : List Entry) :
    datBytes (er4Entries es) = datBytes es := by
  induction es with
  | nil => simp [er4Entries]
  | cons e rest ih => cases e <;> simp [er4Entries, datBytes, ih]

mutual
theorem erDir_pass1 (d : Directory) (off : Nat) : erDir (pass1Dir d off).1 = erDir d := by
  match d with
  | .mk ch o ns is =>
    simp only [pass1Dir, erDir, Directory.mk.injEq, true_and]
    exact ⟨erEntries_pass1 ns _ _, erEntries_pass1 is _ _⟩

theorem erEntries_pass1 (es : List Entry) (eoff coff : Nat) :
    erEntries (pass1Entries es eoff coff).1 = erEntries es := by
  match es with
  | [] => rfl
  | .sub k eo d :: rest =>
    simp only [pass1Entries, erEntries, erDir_pass1 d coff,
      erEntries_pass1 rest (add32 eoff rawDirectoryEntrySize) (pass1Dir d coff).2]
  | .dat k eo de :: rest =>
    simp only [pass1Entries, erEntries,
      erEntries_pass1 rest (add32 eoff rawDirectoryEntrySize) coff]
end

mutual
theorem erDir_pass2 (d : Directory) (off : Nat) : erDir (pass2Dir d off).1 = erDir d := by
  match d with
  | .mk ch o ns is =>
    simp only [pass2Dir, erDir, Directory.mk.injEq, true_and]
    exact ⟨erEntries_pass2 ns _ _, erEntries_pass2 is _ _⟩

theorem erEntries_pass2 (es : List Entry) (soff coff : Nat) :
    erEntries (pass2Entries es soff coff).1 = erEntries es := by
  match es with
  | [] => rfl
  | .sub (.name s so) eo d :: rest =>
    simp only [pass2Entries, erEntries, erKey, erDir_pass2 d coff,
      erEntries_pass2 rest (add32 soff (2 + 2 * utf16Length s)) (pass2Dir d coff).2]
  | .sub (.id i) eo d :: rest =>
    simp only [pass2Entries, erEntries, erKey, erDir_pass2 d coff,
      erEntries_pass2 rest soff (pass2Dir d coff).2]
  | .dat (.name s so) eo de :: rest =>
    simp only [pass2Entries, erEntries, erKey,
      erEntries_pass2 rest (add32 soff (2 + 2 * utf16Length s)) coff]
  | .dat (.id i) eo de :: rest =>
    simp only [pass2Entries, erEntries, erKey, erEntries_pass2 rest soff coff]
end

mutual
theorem erDir_pass3 (d : Directory) (off : Nat) : erDir (pass3Dir d off).1 = erDir d := by
  match d with
  | .mk ch o ns is =>
    simp only [pass3Dir, erDir, Directory.mk.injEq, true_and]
    exact ⟨erEntries_pass3 ns _ _, erEntries_pass3 is _ _⟩

theorem erEntries_pass3 (es : List Entry) (doff coff : Nat) :
    erEntries (pass3Entries es doff coff).entries = erEntries es := by
  match es with
  | [] => rfl
  | .dat k eo de :: rest =>
    simp only [pass3Entries, erEntries,
      erEntries_pass3 rest (add32 doff rawDataEntrySize) coff]
  | .sub k eo d :: rest =>
    simp only [pass3Entries, erEntries, erDir_pass3 d coff,
      erEntries_pass3 rest doff (pass3Dir d coff).2.1]
end

mutual
theorem erDir_pass4 (d : Directory) (off : Nat) : erDir (pass4Dir d off).1 = erDir d := by
  match d with
  | .mk ch o ns is =>
    simp only [pass4Dir, erDir, Directory.mk.injEq, true_and]
    exact ⟨erEntries_pass4 ns _ _, erEntries_pass4 is _ _⟩

theorem erEntries_pass4 (es : List Entry) (doff coff : Nat) :
    erEntries (pass4Entries es doff coff).1 = erEntries es := by
  match es with
  | [] => rfl
  | .dat k eo de :: rest =>
    simp only [pass4Entries, erEntries,
      erEntries_pass4 rest (add32 doff de.blob.length) coff]
  | .sub k eo d :: rest =>
    simp only [pass4Entries, erEntries, erDir_pass4 d coff,
      erEntries_pass4 rest doff (pass4Dir d coff).2]
end

mutual
theorem pass1_canon_dir (d : Directory) (off : Nat) :
    (pass1Dir (erDir d) off).2 = (pass1Dir d off).2 ∧
      er234Dir (pass1Dir (erDir d) off).1 = er234Dir (pass1Dir d off).1 := by
  match d with
  | .mk ch o ns is =>
    have hn := pass1_canon_entries ns (add32 off rawDirectorySize)
      (add32 (add32 off rawDirectorySize) (rawDirectoryEntrySize * (ns.length + is.length)))
    simp only [erDir, pass1Dir, erEntries_length]
    simp only [hn.1]
    have hi := pass1_canon_entries is
      (pass1Entries ns (add32 off rawDirectorySize)
        (add32 (add32 off rawDirectorySize)
          (rawDirectoryEntrySize * (ns.length + is.length)))).2.1
      (pass1Entries ns (add32 off rawDirectorySize)
        (add32 (add32 off rawDirectorySize)
          (rawDirectoryEntrySize * (ns.length + is.length)))).2.2
    simp only [hi.1]
    refine ⟨by simp, ?_⟩
    simp [er234Dir, hn.2, hi.2]

theorem pass1_canon_entries (es : List Entry) (eoff coff : Nat) :
    (pass1Entries (erEntries es) eoff coff).2 = (pass1Entries es eoff coff).2 ∧
      er234Entries (pass1Entries (erEntries es) eoff coff).1 =
        er234Entries (pass1Entries es eoff coff).1 := by
  match es with
  | [] => exact ⟨rfl, rfl⟩
  | .sub k eo d :: rest =>
    have hd := pass1_canon_dir d coff
    simp only [erEntries, pass1Entries]
    simp only [hd.1]
    have ht := pass1_canon_entries rest (add32 eoff rawDirectoryEntrySize) (pass1Dir d coff).2
    simp only [ht.1]
    refine ⟨by simp, ?_⟩
    simp [er234Entries, erKey_idem, hd.2, ht.2]
  | .dat k eo de :: rest =>
    have ht := pass1_canon_entries rest (add32 eoff rawDirectoryEntrySize) coff
    simp only [erEntries, pass1Entries]
    simp only [ht.1]
    refine ⟨by simp, ?_⟩
    simp [er234Entries, erKey_idem, ht.2]
end

mutual
theorem pass2_canon_dir (d : Directory) (off : Nat) :
    (pass2Dir (er234Dir d) off).2 = (pass2Dir d off).2 ∧
      er34Dir (pass2Dir (er234Dir d) off).1 = er34Dir (pass2Dir d off).1 := by
  match d with
  | .mk ch o ns is =>
    have hn := pass2_canon_entries ns off (add32 off (poolBytes ns + poolBytes is))
    simp only [er234Dir, pass2Dir, poolBytes_er234Entries]
    simp only [hn.1]
    have hi := pass2_canon_entries is
      (pass2Entries ns off (add32 off (poolBytes ns + poolBytes is))).2.1
      (pass2Entries ns off (add32 off (poolBytes ns + poolBytes is))).2.2
    simp only [hi.1]
    refine ⟨by simp, ?_⟩
    simp [er34Dir, hn.2, hi.2]

theorem pass2_canon_entries (es : List Entry) (soff coff : Nat) :
    (pass2Entries (er234Entries es) soff coff).2 = (pass2Entries es soff coff).2 ∧
      er34Entries (pass2Entries (er234Entries es) soff coff).1 =
        er34Entries (pass2Entries es soff coff).1 := by
  match es with
  | [] => exact ⟨rfl, rfl⟩
  | .sub (.name s so) eo d :: rest =>
    have hd := pass2_canon_dir d coff
    simp only [er234Entries, erKey, pass2Entries]
    simp only [hd.1]
    have ht := pass2_canon_entries rest (add32 soff (2 + 2 * utf16Length s)) (pass2Dir d coff).2
    simp only [ht.1]
    refine ⟨by simp, ?_⟩
    simp [er34Entries, hd.2, ht.2]
  | .sub (.id i) eo d :: rest =>
    have hd := pass2_canon_dir d coff
    simp only [er234Entries, erKey, pass2Entries]
    simp only [hd.1]
    have ht := pass2_canon_entries rest soff (pass2Dir d coff).2
    simp only [ht.1]
    refine ⟨by simp, ?_⟩
    simp [er34Entries, hd.2, ht.2]
  | .dat (.name s so) eo de :: rest =>
    have ht := pass2_canon_entries rest (add32 soff (2 + 2 * utf16Length s)) coff
    simp only [er234Entries, erKey, pass2Entries]
    simp only [ht.1]
    refine ⟨by simp, ?_⟩
    simp [er34Entries, ht.2]
  | .dat (.id i) eo de :: rest =>
    have ht := pass2_canon_entries rest soff coff
    simp only [er234Entries, erKey, pass2Entries]
    simp only [ht.1]
    refine ⟨by simp, ?_⟩
    simp [er34Entries, ht.2]
end

mutual
theorem pass3_canon_dir (d : Directory) (off : Nat) :
    (pass3Dir (er34Dir d) off).2 = (pass3Dir d off).2 ∧
      er4Dir (pass3Dir (er34Dir d) off).1 = er4Dir (pass3Dir d off).1 := by
  match d with
  | .mk ch o ns is =>
    have hn := pass3_canon_entries ns off
      (add32 off (rawDataEntrySize * (datCount ns + datCount is)))
    simp only [er34Dir, pass3Dir, datCount_er34Entries]
    simp only [hn.1, hn.2.1, hn.2.2.1, hn.2.2.2.1]
    have hi := pass3_canon_entries is
      (pass3Entries ns off (add32 off (rawDataEntrySize * (datCount ns + datCount is)))).doff
      (pass3Entries ns off (add32 off (rawDataEntrySize * (datCount ns + datCount is)))).coff
    simp only [hi.1, hi.2.1, hi.2.2.1, hi.2.2.2.1]
    refine ⟨by simp, ?_⟩
    simp [er4Dir, hn.2.2.2.2, hi.2.2.2.2]

theorem pass3_canon_entries (es : List Entry) (doff coff : Nat) :
    (pass3Entries (er34Entries es) doff coff).doff = (pass3Entries es doff coff).doff ∧
      (pass3Entries (er34Entries es) doff coff).coff = (pass3Entries es doff coff).coff ∧
      (pass3Entries (er34Entries es) doff coff).levelRelocs
        = (pass3Entries es doff coff).levelRelocs ∧
      (pass3Entries (er34Entries es) doff coff).childRelocs
        = (pass3Entries es doff coff).childRelocs ∧
      er4Entries (pass3Entries (er34Entries es) doff coff).entries =
        er4Entries (pass3Entries es doff coff).entries := by
  match es with
  | [] => exact ⟨rfl, rfl, rfl, rfl, rfl⟩
  | .dat k eo de :: rest =>
    have ht := pass3_canon_entries rest (add32 doff rawDataEntrySize) coff
    simp only [er34Entries, pass3Entries]
    simp only [ht.1, ht.2.1, ht.2.2.1, ht.2.2.2.1]
    refine ⟨by simp, by simp, by simp, by simp, ?_⟩
    simp [er4Entries, ht.2.2.2.2]
  | .sub k eo d :: rest =>
    have hd := pass3_canon_dir d coff
    have hd2 : (pass3Dir (er34Dir d) coff).2.1 = (pass3Dir d coff).2.1 :=
      congrArg Prod.fst hd.1
    have hd3 : (pass3Dir (er34Dir d) coff).2.2 = (pass3Dir d coff).2.2 :=
      congrArg Prod.snd hd.1
    simp only [er34Entries, pass3Entries]
    simp only [hd2, hd3]
    have ht := pass3_canon_entries rest doff (pass3Dir d coff).2.1
    simp only [ht.1, ht.2.1, ht.2.2.1, ht.2.2.2.1]
    refine ⟨by simp, by simp, by simp, by simp, ?_⟩
    simp [er4Entries, hd.2, ht.2.2.2.2]
end

mutual
theorem pass4_canon_dir (d : Directory) (off : Nat) :
    pass4Dir (er4Dir d) off = pass4Dir d off := by
  match d with
  | .mk ch o ns is =>
    have hn := pass4_canon_entries ns off (add32 off (datBytes ns + datBytes is))
    simp only [er4Dir, pass4Dir, datBytes_er4Entries]
    rw [hn]
    have hi := pass4_canon_entries is
      (pass4Entries ns off (add32 off (datBytes ns + datBytes is))).2.1
      (pass4Entries ns off (add32 off (datBytes ns + datBytes is))).2.2
    rw [hi]

theorem pass4_canon_entries (es : List Entry) (doff coff : Nat) :
    pass4Entries (er4Entries es) doff coff = pass4Entries es doff coff := by
  match es with
  | [] => rfl
  | .dat k eo de :: rest =>
    have ht := pass4_canon_entries rest (add32 doff de.blob.length) coff
    simp only [er4Entries, pass4Entries]
    rw [ht]
  | .sub k eo d :: rest =>
    have hd := pass4_canon_dir d coff
    simp only [er4Entries, pass4Entries]
    rw [hd]
    have ht := pass4_canon_entries rest doff (pass4Dir d coff).2
    rw [ht]
end

mutual
theorem len1Dir_er (d : Directory) : len1Dir (erDir d) = len1Dir d := by
  match d with
  | .mk ch o ns is =>
    simp only [erDir, len1Dir, erEntries_length, len1Entries_er ns, len1Entries_er is]

theorem len1Entries_er (es : List Entry) : len1Entries (erEntries es) = len1Entries es := by
  match es with
  | [] => rfl
  | .sub k eo d :: rest =>
    simp only [erEntries, len1Entries, len1Dir_er d, len1Entries_er rest]
  | .dat k eo de :: rest => simp only [erEntries, len1Entries, len1Entries_er rest]
end

mutual
theorem len2Dir_er (d : Directory) : len2Dir (erDir d) = len2Dir d := by
  match d with
  | .mk ch o ns is =>
    simp only [erDir, len2Dir, poolBytes_erEntries, len2Entries_er ns, len2Entries_er is]

theorem len2Entries_er (es : List Entry) : len2Entries (erEntries es) = len2Entries es := by
  match es with
  | [] => rfl
  | .sub k eo d :: rest =>
    simp only [erEntries, len2Entries, len2Dir_er d, len2Entries_er rest]
  | .dat k eo de :: rest => simp only [erEntries, len2Entries, len2Entries_er rest]
end

mutual
theorem len3Dir_er (d : Directory) : len3Dir (erDir d) = len3Dir d := by
  match d with
  | .mk ch o ns is =>
    simp only [erDir, len3Dir, datCount_erEntries, len3Entries_er ns, len3Entries_er is]

theorem len3Entries_er (es : List Entry) : len3Entries (erEntries es) = len3Entries es := by
  match es with
  | [] => rfl
  | .sub k eo d :: rest =>
    simp only [erEntries, len3Entries, len3Dir_er d, len3Entries_er rest]
  | .dat k eo de :: rest => simp only [erEntries, len3Entries, len3Entries_er rest]
end

mutual
theorem len4Dir_er (d : Directory) : len4Dir (erDir d) = len4Dir d := by
  match d with
  | .mk ch o ns is =>
    simp only [erDir, len4Dir, datBytes_erEntries, len4Entries_er ns, len4Entries_er is]

theorem len4Entries_er (es : List Entry) : len4Entries (erEntries es) = len4Entries es := by
  match es with
  | [] => rfl
  | .sub k eo d :: rest =>
    simp only [erEntries, len4Entries, len4Dir_er d, len4Entries_er rest]
  | .dat k eo de :: rest => simp only [erEntries, len4Entries, len4Entries_er rest]
end

/-- The tree the freeze pipeline produces, its cursor, and its relocations
depend only on the shape (offset-erased form) of the input tree. -/
theorem freeze_det (s s' : Section) (h : erDir s'.rootDir = erDir s.rootDir) :
    freeze s' = freeze s := by
  obtain ⟨u, ru⟩ := s'
  obtain ⟨t, rt⟩ := s
  simp only at h
  have a1 := pass1_canon_dir u 0
  have b1 := pass1_canon_dir t 0
  have h1c : (pass1Dir u 0).2 = (pass1Dir t 0).2 := by rw [← a1.1, ← b1.1, h]
  have h1t : er234Dir (pass1Dir u 0).1 = er234Dir (pass1Dir t 0).1 := by
    rw [← a1.2, ← b1.2, h]
  have a2 := pass2_canon_dir (pass1Dir u 0).1 (pass1Dir t 0).2
  have b2 := pass2_canon_dir (pass1Dir t 0).1 (pass1Dir t 0).2
  have h2c : (pass2Dir (pass1Dir u 0).1 (pass1Dir u 0).2).2
      = (pass2Dir (pass1Dir t 0).1 (pass1Dir t 0).2).2 := by
    rw [h1c, ← a2.1, ← b2.1, h1t]
  have h2t : er34Dir (pass2Dir (pass1Dir u 0).1 (pass1Dir u 0).2).1
      = er34Dir (pass2Dir (pass1Dir t 0).1 (pass1Dir t 0).2).1 := by
    rw [h1c, ← a2.2, ← b2.2, h1t]
  have a3 := pass3_canon_dir (pass2Dir (pass1Dir u 0).1 (pass1Dir u 0).2).1
    (pass2Dir (pass1Dir t 0).1 (pass1Dir t 0).2).2
  have b3 := pass3_canon_dir (pass2Dir (pass1Dir t 0).1 (pass1Dir t 0).2).1
    (pass2Dir (pass1Dir t 0).1 (pass1Dir t 0).2).2
  have h3p : (pass3Dir (pass2Dir (pass1Dir u 0).1 (pass1Dir u 0).2).1
        (pass2Dir (pass1Dir u 0).1 (pass1Dir u 0).2).2).2
      = (pass3Dir (pass2Dir (pass1Dir t 0).1 (pass1Dir t 0).2).1
        (pass2Dir (pass1Dir t 0).1 (pass1Dir t 0).2).2).2 := by
    rw [h2c, ← a3.1, ← b3.1, h2t]
  have h3t : er4Dir (pass3Dir (pass2Dir (pass1Dir u 0).1 (pass1Dir u 0).2).1
        (pass2Dir (pass1Dir u 0).1 (pass1Dir u 0).2).2).1
      = er4Dir (pass3Dir (pass2Dir (pass1Dir t 0).1 (pass1Dir t 0).2).1
        (pass2Dir (pass1Dir t 0).1 (pass1Dir t 0).2).2).1 := by
    rw [h2c, ← a3.2, ← b3.2, h2t]
  have h3c : (pass3Dir (pass2Dir (pass1Dir u 0).1 (pass1Dir u 0).2).1
        (pass2Dir (pass1Dir u 0).1 (pass1Dir u 0).2).2).2.1
      = (pass3Dir (pass2Dir (pass1Dir t 0).1 (pass1Dir t 0).2).1
        (pass2Dir (pass1Dir t 0).1 (pass1Dir t 0).2).2).2.1 :=
    congrArg Prod.fst h3p
  have h3r : (pass3Dir (pass2Dir (pass1Dir u 0).1 (pass1Dir u 0).2).1
        (pass2Dir (pass1Dir u 0).1 (pass1Dir u 0).2).2).2.2
      = (pass3Dir (pass2Dir (pass1Dir t 0).1 (pass1Dir t 0).2).1
        (pass2Dir (pass1Dir t 0).1 (pass1Dir t 0).2).2).2.2 :=
    congrArg Prod.snd h3p
  have h4 : pass4Dir (pass3Dir (pass2Dir (pass1Dir u 0).1 (pass1Dir u 0).2).1
        (pass2Dir (pass1Dir u 0).1 (pass1Dir u 0).2).2).1
        (pass3Dir (pass2Dir (pass1Dir u 0).1 (pass1Dir u 0).2).1
          (pass2Dir (pass1Dir u 0).1 (pass1Dir u 0).2).2).2.1
      = pass4Dir (pass3Dir (pass2Dir (pass1Dir t 0).1 (pass1Dir t 0).2).1
          (pass2Dir (pass1Dir t 0).1 (pass1Dir t 0).2).2).1
        (pass3Dir (pass2Dir (pass1Dir t 0).1 (pass1Dir t 0).2).1
          (pass2Dir (pass1Dir t 0).1 (pass1Dir t 0).2).2).2.1 := by
    rw [h3c]
    rw [← pass4_canon_dir (pass3Dir (pass2Dir (pass1Dir u 0).1 (pass1Dir u 0).2).1
      (pass2Dir (pass1Dir u 0).1 (pass1Dir u 0).2).2).1
      (pass3Dir (pass2Dir (pass1Dir t 0).1 (pass1Dir t 0).2).1
        (pass2Dir (pass1Dir t 0).1 (pass1Dir t 0).2).2).2.1,
      ← pass4_canon_dir (pass3Dir (pass2Dir (pass1Dir t 0).1 (pass1Dir t 0).2).1
        (pass2Dir (pass1Dir t 0).1 (pass1Dir t 0).2).2).1
        (pass3Dir (pass2Dir (pass1Dir t 0).1 (pass1Dir t 0).2).1
          (pass2Dir (pass1Dir t 0).1 (pass1Dir t 0).2).2).2.1, h3t]
  simp only [freeze]
  rw [h3r, h4]

/-- The shape of the frozen tree equals the shape of the input tree. -/
theorem erDir_frozen (s : Section) : erDir (freeze s).1.rootDir = erDir s.rootDir := by
  simp only [freeze]
  rw [erDir_pass4, erDir_pass3, erDir_pass2, erDir_pass1]

/-- Total exact byte size of the tree's serialized form. -/
def lenDir (d : Directory) : Nat := len1Dir d + len2Dir d + len3Dir d + len4Dir d

/-- Descriptor offsets of the data entries at one directory level. -/
def levelOffsets : List Entry → List Nat
  | [] => []
  | .dat _ _ de :: es => de.offset :: levelOffsets es
  | .sub _ _ _ :: es => levelOffsets es

mutual
/-- Descriptor offsets of every DataEntry, in walk order (a directory's own
data entries before all data entries of its subdirectories). -/
def dataOffsetsDir : Directory → List Nat
  | .mk _ _ ns is =>
    (levelOffsets ns ++ levelOffsets is) ++ (dataOffsetsEntries ns ++ dataOffsetsEntries is)

def dataOffsetsEntries : List Entry → List Nat
  | [] => []
  | .sub _ _ d :: es => dataOffsetsDir d ++ dataOffsetsEntries es
  | .dat _ _ _ :: es => dataOffsetsEntries es
end

mutual
/-- Number of DataEntry nodes in a tree. -/
def countDataDir : Directory → Nat
  | .mk _ _ ns is => (datCount ns + datCount is) + (countDataEntries ns + countDataEntries is)

def countDataEntries : List Entry → Nat
  | [] => 0
  | .sub _ _ d :: es => countDataDir d + countDataEntries es
  | .dat _ _ _ :: es => countDataEntries es
end

mutual
theorem pass3Dir_relocs (d : Directory) (off : Nat) :
    (pass3Dir d off).2.2 = dataOffsetsDir (pass3Dir d off).1 := by
  match d with
  | .mk ch o ns is =>
    have hn := pass3Entries_relocs ns off
      (add32 off (rawDataEntrySize * (datCount ns + datCount is)))
    have hi := pass3Entries_relocs is
      (pass3Entries ns off (add32 off (rawDataEntrySize * (datCount ns + datCount is)))).doff
      (pass3Entries ns off (add32 off (rawDataEntrySize * (datCount ns + datCount is)))).coff
    simp only [pass3Dir, dataOffsetsDir, hn.1, hn.2, hi.1, hi.2]

theorem pass3Entries_relocs (es : List Entry) (doff coff : Nat) :
    (pass3Entries es doff coff).levelRelocs
        = levelOffsets (pass3Entries es doff coff).entries ∧
      (pass3Entries es doff coff).childRelocs
        = dataOffsetsEntries (pass3Entries es doff coff).entries := by
  match es with
  | [] => exact ⟨rfl, rfl⟩
  | .dat k eo de :: rest =>
    have ht := pass3Entries_relocs rest (add32 doff rawDataEntrySize) coff
    simp only [pass3Entries, levelOffsets, dataOffsetsEntries, ht.1, ht.2]
    exact ⟨trivial, trivial⟩
  | .sub k eo d :: rest =>
    have hd := pass3Dir_relocs d coff
    have ht := pass3Entries_relocs rest doff (pass3Dir d coff).2.1
    simp only [pass3Entries, levelOffsets, dataOffsetsEntries, hd, ht.1, ht.2]
    exact ⟨trivial, trivial⟩
end

mutual
theorem dataOffsets_pass4_dir (d : Directory) (off : Nat) :
    dataOffsetsDir (pass4Dir d off).1 = dataOffsetsDir d := by
  match d with
  | .mk ch o ns is =>
    have hn := dataOffsets_pass4_entries ns off (add32 off (datBytes ns + datBytes is))
    have hi := dataOffsets_pass4_entries is
      (pass4Entries ns off (add32 off (datBytes ns + datBytes is))).2.1
      (pass4Entries ns off (add32 off (datBytes ns + datBytes is))).2.2
    simp only [pass4Dir, dataOffsetsDir, hn.1, hn.2, hi.1, hi.2]

theorem dataOffsets_pass4_entries (es : List Entry) (doff coff : Nat) :
    levelOffsets (pass4Entries es doff coff).1 = levelOffsets es ∧
      dataOffsetsEntries (pass4Entries es doff coff).1 = dataOffsetsEntries es := by
  match es with
  | [] => exact ⟨rfl, rfl⟩
  | .dat k eo de :: rest =>
    have ht := dataOffsets_pass4_entries rest (add32 doff de.blob.length) coff
    simp only [pass4Entries, levelOffsets, dataOffsetsEntries, ht.1, ht.2]
    exact ⟨trivial, trivial⟩
  | .sub k eo d :: rest =>
    have hd := dataOffsets_pass4_dir d coff
    have ht := dataOffsets_pass4_entries rest doff (pass4Dir d coff).2
    simp only [pass4Entries, levelOffsets, dataOffsetsEntries, hd, ht.1, ht.2]
    exact ⟨trivial, trivial⟩
end

/-- Relocations() is exactly the list of descriptor offsets of the frozen
tree's data entries, in walk order. -/
theorem relocationList_eq (s : Section) :
    s.relocationList = dataOffsetsDir (freeze s).1.rootDir := by
  simp only [Section.relocationList, freeze]
  rw [dataOffsets_pass4_dir, pass3Dir_relocs]

theorem levelOffsets_length (es : List Entry) : (levelOffsets es).length = datCount es := by
  induction es with
  | nil => rfl
  | cons e rest ih =>
    match e with
    | .dat k eo de => simp [levelOffsets, datCount, ih]; omega
    | .sub k eo d => simp [levelOffsets, datCount, ih]

mutual
theorem dataOffsets_length_dir (d : Directory) :
    (dataOffsetsDir d).length = countDataDir d := by
  match d with
  | .mk ch o ns is =>
    have hn := dataOffsets_length_entries ns
    have hi := dataOffsets_length_entries is
    simp only [dataOffsetsDir, countDataDir, List.length_append, hn, hi,
      levelOffsets_length]

theorem dataOffsets_length_entries (es : List Entry) :
    (dataOffsetsEntries es).length = countDataEntries es := by
  match es with
  | [] => rfl
  | .sub k eo d :: rest =>
    have hd := dataOffsets_length_dir d
    have ht := dataOffsets_length_entries rest
    simp only [dataOffsetsEntries, countDataEntries, List.length_append, hd, ht]
  | .dat k eo de :: rest =>
    have ht := dataOffsets_length_entries rest
    simp only [dataOffsetsEntries, countDataEntries, ht]
end

mutual
theorem countData_er_dir (d : Directory) : countDataDir (erDir d) = countDataDir d := by
  match d with
  | .mk ch o ns is =>
    simp only [erDir, countDataDir, datCount_erEntries,
      countData_er_entries ns, countData_er_entries is]

theorem countData_er_entries (es : List Entry) :
    countDataEntries (erEntries es) = countDataEntries es := by
  match es with
  | [] => rfl
  | .sub k eo d :: rest =>
    simp only [erEntries, countDataEntries, countData_er_dir d, countData_er_entries rest]
  | .dat k eo de :: rest =>
    simp only [erEntries, countDataEntries, countData_er_entries rest]
end

theorem countDataEntries_append (a b : List Entry) :
    countDataEntries (a ++ b) = countDataEntries a + countDataEntries b := by
  induction a with
  | nil => simp [countDataEntries]
  | cons e rest ih =>
    match e with
    | .sub k eo d => simp [countDataEntries, ih]; omega
    | .dat k eo de => simp [countDataEntries, ih]

theorem countDataDir_langDir (blob : List Nat) : countDataDir (langDir blob) = 1 := by
  simp [langDir, countDataDir, datCount, countDataEntries]

theorem countDataDir_appendKeyEntry (b : Bool) (key : EntryKey) (blob : List Nat)
    (d : Directory) :
    countDataDir (appendKeyEntry b (.sub key 0 (langDir blob)) d) = countDataDir d + 1 := by
  match d with
  | .mk ch o ns is =>
    cases b <;>
      · simp only [appendKeyEntry, if_true, if_neg Bool.false_ne_true, countDataDir,
          datCount_append, countDataEntries_append, countDataDir_langDir]
        simp [datCount, countDataEntries, countDataDir_langDir]
        omega

theorem addToLastMatchingType_count {typ : Int} {f : Directory → Directory}
    (hf : ∀ d, countDataDir (f d) = countDataDir d + 1) :
    ∀ {is is' : List Entry}, addToLastMatchingType typ f is = some is' →
      countDataEntries is' = countDataEntries is + 1 ∧ datCount is' = datCount is := by
  intro is
  induction is with
  | nil => intro is' h; simp [addToLastMatchingType] at h
  | cons e rest ih =>
    intro is' h
    cases hrec : addToLastMatchingType typ f rest with
    | some rs =>
      simp only [addToLastMatchingType, hrec] at h
      obtain rfl : e :: rs = is' := by simpa using h
      have hr := ih hrec
      match e with
      | .sub k eo d => simp [countDataEntries, datCount, hr.1, hr.2]; omega
      | .dat k eo de => simp [countDataEntries, datCount, hr.1, hr.2]
    | none =>
      simp only [addToLastMatchingType, hrec] at h
      match he : updEntryIfType typ f e with
      | some e' =>
        rw [he] at h
        obtain rfl : e' :: rest = is' := by simpa using h
        match e, he with
        | .sub (.id i) eo d, he =>
          simp only [updEntryIfType] at he
          by_cases hit : i == typ
          · rw [if_pos hit] at he
            obtain rfl : Entry.sub (.id i) eo (f d) = e' := by simpa using he
            simp [countDataEntries, datCount, hf d]
            omega
          · rw [if_neg hit] at he; cases he
        | .sub (.name s so) eo d, he => simp [updEntryIfType] at he
        | .dat k eo de, he => simp [updEntryIfType] at he
      | none => rw [he] at h; cases h

theorem addToLastMatchingType_any {typ : Int} {f : Directory → Directory}
    (Q : Entry → Bool)
    (hQ : ∀ (k : EntryKey) (eo : Nat) (d : Directory), Q (.sub k eo (f d)) = true) :
    ∀ {is is' : List Entry}, addToLastMatchingType typ f is = some is' →
      is'.any Q = true := by
  intro is
  induction is with
  | nil => intro is' h; simp [addToLastMatchingType] at h
  | cons e rest ih =>
    intro is' h
    cases hrec : addToLastMatchingType typ f rest with
    | some rs =>
      simp only [addToLastMatchingType, hrec] at h
      obtain rfl : e :: rs = is' := by simpa using h
      simp [List.any_cons, ih hrec]
    | none =>
      simp only [addToLastMatchingType, hrec] at h
      match he : updEntryIfType typ f e with
      | some e' =>
        rw [he] at h
        obtain rfl : e' :: rest = is' := by simpa using h
        match e, he with
        | .sub (.id i) eo d, he =>
          simp only [updEntryIfType] at he
          by_cases hit : i == typ
          · rw [if_pos hit] at he
            obtain rfl : Entry.sub (.id i) eo (f d) = e' := by simpa using he
            simp [List.any_cons, hQ]
          · rw [if_neg hit] at he; cases he
        | .sub (.name s so) eo d, he => simp [updEntryIfType] at he
        | .dat k eo de, he => simp [updEntryIfType] at he
      | none => rw [he] at h; cases h

theorem addToLastMatchingType_all {typ : Int} {f : Directory → Directory}
    (P : Entry → Bool)
    (hP : ∀ (k : EntryKey) (eo : Nat) (d : Directory),
      P (.sub k eo d) = true → P (.sub k eo (f d)) = true) :
    ∀ {is is' : List Entry}, addToLastMatchingType typ f is = some is' →
      (∀ e ∈ is, P e = true) → ∀ e ∈ is', P e = true := by
  intro is
  induction is with
  | nil => intro is' h; simp [addToLastMatchingType] at h
  | cons e rest ih =>
    intro is' h hall
    cases hrec : addToLastMatchingType typ f rest with
    | some rs =>
      simp only [addToLastMatchingType, hrec] at h
      obtain rfl : e :: rs = is' := by simpa using h
      intro x hx
      rcases List.mem_cons.1 hx with hx | hx
      · exact hx ▸ hall e (by simp)
      · exact ih hrec (fun y hy => hall y (by simp [hy])) x hx
    | none =>
      simp only [addToLastMatchingType, hrec] at h
      match he : updEntryIfType typ f e with
      | some e' =>
        rw [he] at h
        obtain rfl : e' :: rest = is' := by simpa using h
        match e, he with
        | .sub (.id i) eo d, he =>
          simp only [updEntryIfType] at he
          by_cases hit : i == typ
          · rw [if_pos hit] at he
            obtain rfl : Entry.sub (.id i) eo (f d) = e' := by simpa using he
            intro x hx
            rcases List.mem_cons.1 hx with hx | hx
            · exact hx ▸ hP _ _ _ (hall _ (by simp))
            · exact hall x (by simp [hx])
          · rw [if_neg hit] at he; cases he
        | .sub (.name s so) eo d, he => simp [updEntryIfType] at he
        | .dat k eo de, he => simp [updEntryIfType] at he
      | none => rw [he] at h; cases h

/-- Invariant of reachable sections: no root-level Type entry is terminal. -/
def RootOk (s : Section) : Prop := ∀ e ∈ s.rootDir.idEntries, isDatEntry e = false

theorem addResource_guard (s : Section) (typ : Int) (h : RootOk s) :
    (s.rootDir.idEntries.any fun e => typeMatches typ e && isDatEntry e) = false := by
  rw [List.any_eq_false]
  intro e he
  simp [h e he]

theorem countDataDir_empty : countDataDir (.mk 0 0 [] []) = 0 := rfl

theorem countDataDir_mk (ch o : Nat) (ns is : List Entry) :
    countDataDir (.mk ch o ns is)
      = (datCount ns + datCount is) + (countDataEntries ns + countDataEntries is) := rfl

theorem addResourceByID_props (s : Section) (typ i : Int) (blob : List Nat)
    (h : RootOk s) :
    ∃ s', s.addResourceByID typ i blob = .ok s' ∧ RootOk s' ∧
      countDataDir s'.rootDir = countDataDir s.rootDir + 1 := by
  have hg := addResource_guard s typ h
  obtain ⟨root, rl⟩ := s
  obtain ⟨ch, o, ns, is⟩ := root
  simp only [Directory.idEntries] at hg
  simp only [RootOk, Directory.idEntries] at h
  simp only [Section.addResourceByID, Section.addResource, Directory.idEntries,
    Directory.nameEntries, Directory.characteristics, Directory.offset, hg,
    Bool.false_eq_true, if_false, Option.isNone_some]
  cases hrec : addToLastMatchingType typ
      (appendKeyEntry false (.sub (.id i) 0 (langDir blob))) is with
  | some is' =>
    refine ⟨_, rfl, ?_, ?_⟩
    · intro e he
      have hall := addToLastMatchingType_all (fun e => !isDatEntry e)
        (fun k eo d _ => by simp [isDatEntry]) hrec
        (fun e he => by simp [h e he]) e he
      simpa using hall
    · have hc := addToLastMatchingType_count
        (countDataDir_appendKeyEntry false (.id i) blob) hrec
      simp only [countDataDir, Directory.idEntries, hc.1, hc.2]
      omega
  | none =>
    refine ⟨_, rfl, ?_, ?_⟩
    · intro e he
      rcases List.mem_append.1 he with he | he
      · exact h e he
      · simp only [List.mem_singleton] at he
        simp [he, isDatEntry]
    · simp only [countDataDir_mk, Directory.idEntries, datCount_append,
        countDataEntries_append, datCount, countDataEntries,
        countDataDir_appendKeyEntry, countDataDir_empty]
      omega

theorem addResourceByName_props (s : Section) (typ : Int) (n : String) (blob : List Nat)
    (h : RootOk s) :
    ∃ s', s.addResourceByName typ n blob = .ok s' ∧ RootOk s' ∧
      countDataDir s'.rootDir = countDataDir s.rootDir + 1 := by
  have hg := addResource_guard s typ h
  obtain ⟨root, rl⟩ := s
  obtain ⟨ch, o, ns, is⟩ := root
  simp only [Directory.idEntries] at hg
  simp only [RootOk, Directory.idEntries] at h
  simp only [Section.addResourceByName, Section.addResource, Directory.idEntries,
    Directory.nameEntries, Directory.characteristics, Directory.offset, hg,
    Bool.false_eq_true, if_false, Option.isNone_none]
  cases hrec : addToLastMatchingType typ
      (appendKeyEntry true (.sub (.name n 0) 0 (langDir blob))) is with
  | some is' =>
    refine ⟨_, rfl, ?_, ?_⟩
    · intro e he
      have hall := addToLastMatchingType_all (fun e => !isDatEntry e)
        (fun k eo d _ => by simp [isDatEntry]) hrec
        (fun e he => by simp [h e he]) e he
      simpa using hall
    · have hc := addToLastMatchingType_count
        (countDataDir_appendKeyEntry true (.name n 0) blob) hrec
      simp only [countDataDir, Directory.idEntries, hc.1, hc.2]
      omega
  | none =>
    refine ⟨_, rfl, ?_, ?_⟩
    · intro e he
      rcases List.mem_append.1 he with he | he
      · exact h e he
      · simp only [List.mem_singleton] at he
        simp [he, isDatEntry]
    · simp only [countDataDir_mk, Directory.idEntries, datCount_append,
        countDataEntries_append, datCount, countDataEntries,
        countDataDir_appendKeyEntry, countDataDir_empty]
      omega

theorem applyOp_props (s : Section) (op : ResOp) (h : RootOk s) :
    RootOk (applyOp s op) ∧
      countDataDir (applyOp s op).rootDir = countDataDir s.rootDir + 1 := by
  cases op with
  | byID t i b =>
    obtain ⟨s', hok, hro, hc⟩ := addResourceByID_props s t i b h
    simp only [applyOp, hok]
    exact ⟨hro, hc⟩
  | byName t n b =>
    obtain ⟨s', hok, hro, hc⟩ := addResourceByName_props s t n b h
    simp only [applyOp, hok]
    exact ⟨hro, hc⟩

theorem appendKeyEntry_nameEntries_false (ke : Entry) (d : Directory) :
    (appendKeyEntry false ke d).nameEntries = d.nameEntries := by
  obtain ⟨ch, o, ns, is⟩ := d
  simp [appendKeyEntry, Directory.nameEntries]

theorem appendKeyEntry_nameEntries_true (ke : Entry) (d : Directory) :
    (appendKeyEntry true ke d).nameEntries = d.nameEntries ++ [ke] := by
  obtain ⟨ch, o, ns, is⟩ := d
  simp [appendKeyEntry, Directory.nameEntries]

theorem appendKeyEntry_idEntries_false (ke : Entry) (d : Directory) :
    (appendKeyEntry false ke d).idEntries = d.idEntries ++ [ke] := by
  obtain ⟨ch, o, ns, is⟩ := d
  simp [appendKeyEntry, Directory.idEntries]

/-- The name of an add operation, if it is an add-by-name. -/
def opName : ResOp → Option String
  | .byName _ n _ => some n
  | .byID _ _ _ => none

/-- All names ever passed to AddResourceByName in the sequence. -/
def byNameNames (ops : List ResOp) : List String := ops.filterMap opName

theorem addResourceByID_idExists (s : Section) (typ i : Int) (blob : List Nat)
    (s' : Section) (h : s.addResourceByID typ i blob = .ok s') :
    s'.resourceIDExists i = true := by
  obtain ⟨root, rl⟩ := s
  obtain ⟨ch, o, ns, is⟩ := root
  simp only [Section.addResourceByID, Section.addResource, Directory.idEntries,
    Directory.nameEntries, Directory.characteristics, Directory.offset,
    Option.isNone_some] at h
  cases hany : (is.any fun e => typeMatches typ e && isDatEntry e) with
  | true => rw [hany] at h; simp at h
  | false =>
    rw [hany] at h
    simp only [Bool.false_eq_true, if_false] at h
    cases hrec : addToLastMatchingType typ
        (appendKeyEntry false (.sub (.id i) 0 (langDir blob))) is with
    | some is' =>
      rw [hrec] at h
      obtain rfl : (⟨.mk ch o ns is', rl⟩ : Section) = s' := by simpa using h
      simp only [Section.resourceIDExists, Directory.idEntries]
      exact addToLastMatchingType_any (hasIdBelow i)
        (fun k eo d => by
          simp [hasIdBelow, appendKeyEntry_idEntries_false, List.any_append, entryIdIs]) hrec
    | none =>
      rw [hrec] at h
      obtain rfl : (⟨.mk ch o ns
          (is ++ [.sub (.id typ) 0 (appendKeyEntry false
            (.sub (.id i) 0 (langDir blob)) (.mk 0 0 [] []))]), rl⟩ : Section) = s' := by
        simpa using h
      simp only [Section.resourceIDExists, Directory.idEntries, List.any_append]
      simp [hasIdBelow, appendKeyEntry, Directory.idEntries, entryIdIs]

theorem applyOp_nameFalse (s : Section) (op : ResOp) (n : String)
    (hs : s.resourceNameExists n = false) (hop : opName op ≠ some n) :
    (applyOp s op).resourceNameExists n = false := by
  obtain ⟨root, rl⟩ := s
  obtain ⟨ch, o, ns, is⟩ := root
  have hall : ∀ e ∈ is, hasNameBelow n e = false := by
    intro e he
    have := List.any_eq_false.1 (by
      simpa only [Section.resourceNameExists, Directory.idEntries] using hs) e he
    simpa using this
  cases op with
  | byID t i b =>
    simp only [applyOp, Section.addResourceByID, Section.addResource, Directory.idEntries,
      Directory.nameEntries, Directory.characteristics, Directory.offset,
      Option.isNone_some]
    cases hany : (is.any fun e => typeMatches t e && isDatEntry e) with
    | true =>
      simp only [if_pos]
      exact hs
    | false =>
      simp only [Bool.false_eq_true, if_false]
      cases hrec : addToLastMatchingType t
          (appendKeyEntry false (.sub (.id i) 0 (langDir b))) is with
      | some is' =>
        simp only [Section.resourceNameExists, Directory.idEntries]
        rw [List.any_eq_false]
        intro e he
        have := addToLastMatchingType_all (fun e => !hasNameBelow n e)
          (fun k eo d hp => by
            simpa [hasNameBelow, appendKeyEntry_nameEntries_false] using hp)
          hrec (fun e he => by simp [hall e he]) e he
        simpa using this
      | none =>
        simp only [Section.resourceNameExists, Directory.idEntries]
        rw [List.any_eq_false]
        intro e he
        rcases List.mem_append.1 he with he | he
        · simp [hall e he]
        · simp only [List.mem_singleton] at he
          subst he
          simp [hasNameBelow, appendKeyEntry, Directory.nameEntries]
  | byName t m b =>
    have hmn : (m == n) = false := by
      cases hb : (m == n) with
      | false => rfl
      | true =>
        refine absurd ?_ hop
        have hmeq : m = n := eq_of_beq hb
        simp [opName, hmeq]
    simp only [applyOp, Section.addResourceByName, Section.addResource, Directory.idEntries,
      Directory.nameEntries, Directory.characteristics, Directory.offset,
      Option.isNone_none]
    cases hany : (is.any fun e => typeMatches t e && isDatEntry e) with
    | true =>
      simp only [if_pos]
      exact hs
    | false =>
      simp only [Bool.false_eq_true, if_false]
      cases hrec : addToLastMatchingType t
          (appendKeyEntry true (.sub (.name m 0) 0 (langDir b))) is with
      | some is' =>
        simp only [Section.resourceNameExists, Directory.idEntries]
        rw [List.any_eq_false]
        intro e he
        have := addToLastMatchingType_all (fun e => !hasNameBelow n e)
          (fun k eo d hp => by
            simp only [hasNameBelow, appendKeyEntry_nameEntries_true, List.any_append,
              Bool.not_eq_true'] at hp ⊢
            simp [hp, entryNameIs, hmn])
          hrec (fun e he => by simp [hall e he]) e he
        simpa using this
      | none =>
        simp only [Section.resourceNameExists, Directory.idEntries]
        rw [List.any_eq_false]
        intro e he
        rcases List.mem_append.1 he with he | he
        · simp [hall e he]
        · simp only [List.mem_singleton] at he
          subst he
          simp [hasNameBelow, appendKeyEntry, Directory.nameEntries, entryNameIs, hmn]

theorem runOps_nameFalse (ops : List ResOp) (n : String) (h : n ∉ byNameNames ops) :
    (runOps ops).resourceNameExists n = false := by
  have hops : ∀ op ∈ ops, opName op ≠ some n := by
    intro op hop heq
    exact h (List.mem_filterMap.2 ⟨op, hop, heq⟩)
  suffices hgen : ∀ (l : List ResOp) (s : Section), s.resourceNameExists n = false →
      (∀ op ∈ l, opName op ≠ some n) →
      (l.foldl applyOp s).resourceNameExists n = false by
    exact hgen ops Section.new
      (by simp [Section.new, Section.resourceNameExists, Directory.idEntries]) hops
  intro l
  induction l with
  | nil => intro s hs _; simpa using hs
  | cons op rest ih =>
    intro s hs hl
    simp only [List.foldl_cons]
    exact ih (applyOp s op) (applyOp_nameFalse s op n hs (hl op (by simp)))
      (fun o ho => hl o (by simp [ho]))

theorem runOps_count (ops : List ResOp) :
    RootOk (runOps ops) ∧ countDataDir (runOps ops).rootDir = ops.length := by
  suffices hgen : ∀ s, RootOk s → RootOk (ops.foldl applyOp s) ∧
      countDataDir (ops.foldl applyOp s).rootDir = countDataDir s.rootDir + ops.length by
    have hnew : RootOk Section.new := by
      intro e he
      simp [Section.new, Directory.idEntries] at he
    have := hgen Section.new hnew
    refine ⟨this.1, ?_⟩
    rw [runOps, this.2]
    simp [Section.new, countDataDir_empty]
  induction ops with
  | nil =>
    intro s hs
    refine ⟨by simpa using hs, by simp⟩
  | cons op rest ih =>
    intro s hs
    have h1 := applyOp_props s op hs
    have h2 := ih (applyOp s op) h1.1
    refine ⟨h2.1, ?_⟩
    simp only [List.foldl_cons, h2.2, h1.2, List.length_cons]
    omega

theorem len1Dir_shape {u t : Directory} (h : erDir u = erDir t) :
    len1Dir u = len1Dir t := by rw [← len1Dir_er u, h, len1Dir_er]

theorem len2Dir_shape {u t : Directory} (h : erDir u = erDir t) :
    len2Dir u = len2Dir t := by rw [← len2Dir_er u, h, len2Dir_er]

theorem len3Dir_shape {u t : Directory} (h : erDir u = erDir t) :
    len3Dir u = len3Dir t := by rw [← len3Dir_er u, h, len3Dir_er]

theorem len4Dir_shape {u t : Directory} (h : erDir u = erDir t) :
    len4Dir u = len4Dir t := by rw [← len4Dir_er u, h, len4Dir_er]

/-- The byte list WriteTo emits has exactly the four pass region sizes of
the (unfrozen) tree. -/
theorem writeToBytes_length (s : Section) :
    (writeToBytes s).length = lenDir s.rootDir := by
  have e4 := erDir_frozen s
  have : writeToBytes s = ((chunkBytes (plan1Dir (freeze s).1.rootDir)
      ++ chunkBytes (plan2Dir (freeze s).1.rootDir))
      ++ chunkBytes (plan3Dir (freeze s).1.rootDir))
      ++ chunkBytes (plan4Dir (freeze s).1.rootDir) := by
    simp only [writeToBytes, rsrcPlan, chunkBytes, List.flatMap_append]
  rw [this]
  simp only [List.length_append, plan1Dir_bytes_length, plan2Dir_bytes_length,
    plan3Dir_bytes_length, plan4Dir_bytes_length, lenDir,
    len1Dir_shape e4, len2Dir_shape e4, len3Dir_shape e4, len4Dir_shape e4]

/-- Size() is the total serialized byte count reduced modulo 2^32 (the
freeze cursor is a uint32). -/
theorem size_eq_writeLen_mod (s : Section) :
    s.size = (writeToBytes s).length % 2 ^ 32 := by
  have e1 : erDir (pass1Dir s.rootDir 0).1 = erDir s.rootDir := erDir_pass1 _ _
  have e2 : erDir (pass2Dir (pass1Dir s.rootDir 0).1 (pass1Dir s.rootDir 0).2).1
      = erDir s.rootDir := by rw [erDir_pass2]; exact e1
  have e3 : erDir (pass3Dir (pass2Dir (pass1Dir s.rootDir 0).1 (pass1Dir s.rootDir 0).2).1
      (pass2Dir (pass1Dir s.rootDir 0).1 (pass1Dir s.rootDir 0).2).2).1
      = erDir s.rootDir := by rw [erDir_pass3]; exact e2
  have c1 := pass1Dir_cursor s.rootDir 0 (by norm_num)
  have c2 := pass2Dir_cursor (pass1Dir s.rootDir 0).1 (pass1Dir s.rootDir 0).2
    (by rw [c1]; exact Nat.mod_lt _ (by norm_num))
  have c3 := pass3Dir_cursor (pass2Dir (pass1Dir s.rootDir 0).1 (pass1Dir s.rootDir 0).2).1
    (pass2Dir (pass1Dir s.rootDir 0).1 (pass1Dir s.rootDir 0).2).2
    (by rw [c2]; exact Nat.mod_lt _ (by norm_num))
  have c4 := pass4Dir_cursor
    (pass3Dir (pass2Dir (pass1Dir s.rootDir 0).1 (pass1Dir s.rootDir 0).2).1
      (pass2Dir (pass1Dir s.rootDir 0).1 (pass1Dir s.rootDir 0).2).2).1
    (pass3Dir (pass2Dir (pass1Dir s.rootDir 0).1 (pass1Dir s.rootDir 0).2).1
      (pass2Dir (pass1Dir s.rootDir 0).1 (pass1Dir s.rootDir 0).2).2).2.1
    (by rw [c3]; exact Nat.mod_lt _ (by norm_num))
  rw [writeToBytes_length]
  simp only [Section.size, freeze]
  rw [c4, len4Dir_shape e3, c3, len3Dir_shape e2, c2, len2Dir_shape e1, c1]
  simp only [lenDir, Nat.mod_add_mod]
  omega

end Rsrc

/-- The (type, key) pair of an add operation. -/
def Rsrc.opKey : Rsrc.ResOp → Int × (Int ⊕ String)
  | .byID t i _ => (t, .inl i)
  | .byName t n _ => (t, .inr n)

/-- C1 (amended): for a tree built by distinct-key adds, Size() equals the
byte count of a successful WriteTo, provided the total size fits in the
32-bit freeze cursor. -/
theorem C1_size_eq_write (ops : List Rsrc.ResOp)
    (hdist : (ops.map Rsrc.opKey).Nodup)
    (hfit : (Rsrc.writeToBytes (Rsrc.runOps ops)).length < 2 ^ 32) :
    (Rsrc.runOps ops).size = (Rsrc.writeToBytes (Rsrc.runOps ops)).length := by
  rw [Rsrc.size_eq_writeLen_mod, Nat.mod_eq_of_lt hfit]

theorem C1_size_eq_write_witness :
    ([Rsrc.ResOp.byID 3 1 [1, 2, 3]].map Rsrc.opKey).Nodup ∧
      (Rsrc.writeToBytes (Rsrc.runOps [Rsrc.ResOp.byID 3 1 [1, 2, 3]])).length < 2 ^ 32 ∧
      (Rsrc.runOps [Rsrc.ResOp.byID 3 1 [1, 2, 3]]).size
        = (Rsrc.writeToBytes (Rsrc.runOps [Rsrc.ResOp.byID 3 1 [1, 2, 3]])).length :=
  ⟨by decide, by decide, C1_size_eq_write _ (by decide) (by decide)⟩

/-- C1 as stated is false: one distinct-key add of a 2^32-byte blob makes
Size() (a uint32, wrapping) disagree with the bytes WriteTo emits. -/
theorem C1_counterexample :
    ¬ ((Rsrc.runOps [Rsrc.ResOp.byID 3 1 (List.replicate (2 ^ 32) 0)]).size
      = (Rsrc.writeToBytes
          (Rsrc.runOps [Rsrc.ResOp.byID 3 1 (List.replicate (2 ^ 32) 0)])).length) := by
  have h1 := Rsrc.size_eq_writeLen_mod
    (Rsrc.runOps [Rsrc.ResOp.byID 3 1 (List.replicate (2 ^ 32) 0)])
  have h2 := Rsrc.writeToBytes_length
    (Rsrc.runOps [Rsrc.ResOp.byID 3 1 (List.replicate (2 ^ 32) 0)])
  have h3gen : ∀ blob : List Nat,
      Rsrc.lenDir (Rsrc.runOps [Rsrc.ResOp.byID 3 1 blob]).rootDir = blob.length + 56 := by
    intro blob
    simp [Rsrc.runOps, Rsrc.applyOp, Rsrc.Section.addResourceByID, Rsrc.Section.addResource,
      Rsrc.Section.new, Rsrc.addToLastMatchingType, Rsrc.langDir, Rsrc.appendKeyEntry,
      Rsrc.lenDir, Rsrc.len1Dir, Rsrc.len1Entries, Rsrc.len2Dir, Rsrc.len2Entries,
      Rsrc.len3Dir, Rsrc.len3Entries, Rsrc.len4Dir, Rsrc.len4Entries,
      Rsrc.poolBytes, Rsrc.datCount, Rsrc.datBytes, Rsrc.rawDirectorySize,
      Rsrc.rawDirectoryEntrySize, Rsrc.rawDataEntrySize, Rsrc.Directory.idEntries,
      Rsrc.Directory.nameEntries, Rsrc.Directory.characteristics, Rsrc.Directory.offset]
    omega
  have h3 : Rsrc.lenDir
      (Rsrc.runOps [Rsrc.ResOp.byID 3 1 (List.replicate (2 ^ 32) 0)]).rootDir
      = 2 ^ 32 + 56 := by
    rw [h3gen (List.replicate (2 ^ 32) 0), List.length_replicate]
  intro h
  rw [h2, h3] at h h1
  omega

/-- C2 (freeze idempotence): freezing an already-frozen section reproduces
the identical annotated tree, relocation list and cursor, so repeated
Size(), Relocations() and WriteTo calls with no mutation agree. -/
theorem C2_freeze_idempotent (s : Rsrc.Section) :
    Rsrc.freeze (Rsrc.freeze s).1 = Rsrc.freeze s ∧
      (Rsrc.freeze s).1.size = s.size ∧
      (Rsrc.freeze s).1.relocationList = s.relocationList ∧
      Rsrc.writeToBytes (Rsrc.freeze s).1 = Rsrc.writeToBytes s := by
  have h := Rsrc.freeze_det s (Rsrc.freeze s).1 (Rsrc.erDir_frozen s)
  refine ⟨h, ?_, ?_, ?_⟩
  · simp only [Rsrc.Section.size, h]
  · simp only [Rsrc.Section.relocationList, h]
  · simp only [Rsrc.writeToBytes, Rsrc.rsrcPlan, h]

/-- C3: after a sequence of add operations (each succeeds on trees reachable
through the public surface), Relocations() holds exactly one relocation per
DataEntry node — one per add — in walk order, and every virtual address is
the descriptor offset freeze assigned to that DataEntry. -/
theorem C3_relocations_one_per_data_entry (ops : List Rsrc.ResOp) :
    (Rsrc.runOps ops).relocationList
        = Rsrc.dataOffsetsDir (Rsrc.freeze (Rsrc.runOps ops)).1.rootDir ∧
      (Rsrc.runOps ops).relocationList.length
        = Rsrc.countDataDir (Rsrc.runOps ops).rootDir ∧
      (Rsrc.runOps ops).relocationList.length = ops.length := by
  have hlen : (Rsrc.runOps ops).relocationList.length
      = Rsrc.countDataDir (Rsrc.runOps ops).rootDir := by
    rw [Rsrc.relocationList_eq, Rsrc.dataOffsets_length_dir,
      ← Rsrc.countData_er_dir, Rsrc.erDir_frozen, Rsrc.countData_er_dir]
  exact ⟨Rsrc.relocationList_eq _, hlen, by rw [hlen]; exact (Rsrc.runOps_count ops).2⟩

/-- C6: a successful AddResourceByID(T, I, blob) makes ResourceIDExists(I)
true, and ResourceNameExists is false for every name never passed to
AddResourceByName. -/
theorem C6_exists_queries :
    (∀ (s : Rsrc.Section) (typ i : Int) (blob : List Nat) (s' : Rsrc.Section),
        s.addResourceByID typ i blob = .ok s' → s'.resourceIDExists i = true) ∧
      ∀ (ops : List Rsrc.ResOp) (n : String),
        n ∉ Rsrc.byNameNames ops → (Rsrc.runOps ops).resourceNameExists n = false :=
  ⟨Rsrc.addResourceByID_idExists, Rsrc.runOps_nameFalse⟩

theorem C6_exists_queries_witness :
    (Rsrc.Section.new.addResourceByID 3 7 [1]
        = .ok (Rsrc.runOps [Rsrc.ResOp.byID 3 7 [1]]) ∧
      (Rsrc.runOps [Rsrc.ResOp.byID 3 7 [1]]).resourceIDExists 7 = true) ∧
      ("a" ∉ Rsrc.byNameNames [Rsrc.ResOp.byID 3 7 [1]] ∧
        (Rsrc.runOps [Rsrc.ResOp.byID 3 7 [1]]).resourceNameExists "a" = false) :=
  ⟨⟨rfl, C6_exists_queries.1 Rsrc.Section.new 3 7 [1] _ rfl⟩,
    ⟨by simp [Rsrc.byNameNames, Rsrc.opName], C6_exists_queries.2 [Rsrc.ResOp.byID 3 7 [1]]
      "a" (by simp [Rsrc.byNameNames, Rsrc.opName])⟩⟩

namespace Coff

/-- binary.Size of rawFileHeader (spec section 6 record table). -/
def rawFileHeaderSize : Nat := 20

/-- Modelled from the spec: binary.Size of rawSectionHeader (coff/section.go
is not in src); spec section 6: name 8 + three u32 pointers/sizes + u16
relocation count + u32 characteristics. -/
def rawSectionHeaderSize : Nat := 26

/-- binary.Size of rawRelocation: va u32 + symbol index u32 + type u16. -/
def rawRelocationSize : Nat := 10

/-- Modelled from the spec: binary.Size of rawSymbol; spec section 6:
name 8 + value u32 + section u16 + type u16 + storage class u8 + aux u8. -/
def rawSymbolSize : Nat := 18

def IMAGE_REL_AMD64_ADDR32NB : Nat := 0x03
def IMAGE_REL_I386_DIR32NB : Nat := 0x07
def IMAGE_REL_ARM64_ADDR32NB : Nat := 0x02

/-- A section as the container sees it through the Section interface:
Name() bytes, Size(), Relocations() virtual addresses, and the bytes its
own WriteTo emits. -/
structure CSection where
  name : List Nat
  secSize : Nat
  relocs : List Nat
  body : List Nat
deriving Repr, DecidableEq

/-- The COFF file state: architecture name, relocation type code, sections
in insertion order, and the long-name string table entries in insertion
order (each stored name is written null-terminated). -/
structure File where
  arch : String
  machineType : Nat
  sections : List CSection
  strings : List (List Nat)
deriving Repr, DecidableEq

/-- New(): arch amd64, but machineType initialized to the i386 code. -/
def File.new : File := ⟨"amd64", IMAGE_REL_I386_DIR32NB, [], []⟩

/-- SetArch. -/
def File.setArch (f : File) (architechture : String) : Except String File :=
  if architechture = "amd64" then
    .ok { f with arch := "amd64", machineType := IMAGE_REL_AMD64_ADDR32NB }
  else if architechture = "arm64" then
    .ok { f with arch := "arm64", machineType := IMAGE_REL_ARM64_ADDR32NB }
  else if architechture = "i386" then
    .ok { f with arch := "i386", machineType := IMAGE_REL_I386_DIR32NB }
  else .error "invalid architechture"

/-- AddSection: reject a duplicate name; append; a name longer than 8 bytes
contributes one string-table entry unless already present. -/
def File.addSection (f : File) (s : CSection) : Except String File :=
  if f.sections.any fun t => t.name == s.name then
    .error "section with given name already exists"
  else
    let f' : File := { f with sections := f.sections ++ [s] }
    if s.name.length > 8 then
      if f'.strings.contains s.name then .ok f'
      else .ok { f' with strings := f'.strings ++ [s.name] }
    else .ok f'

/-- Section(name): find by name. -/
def File.findSection (f : File) (name : List Nat) : Except String CSection :=
  match f.sections.find? fun t => t.name == name with
  | some sec => .ok sec
  | none => .error "section not found"

/-- Container-level layout produced by freeze: per-section data offsets and
relocation-table offsets, the symbol-table offset, per-string offsets, and
the string table size field. -/
structure Layout where
  dataOffsets : List Nat
  relocationsOffsets : List Nat
  symbolsOffset : Nat
  stringOffsets : List Nat
  stringTableSize : Nat
deriving Repr, DecidableEq

/-- Record each element's offset (the running cursor), advancing by its
uint32 size. -/
def scanOffsets {α : Type} (g : α → Nat) : List α → Nat → List Nat × Nat
  | [], off => ([], off)
  | x :: xs, off =>
    let r := scanOffsets g xs (add32 off (g x))
    (off :: r.1, r.2)

/-- freeze(): the container layout pass of file.go. -/
def File.freeze (f : File) : Layout :=
  let off0 := add32 rawFileHeaderSize (rawSectionHeaderSize * f.sections.length)
  let a := scanOffsets (fun s => s.secSize) f.sections off0
  let b := scanOffsets (fun s => rawRelocationSize * s.relocs.length) f.sections a.2
  let off1 := add32 b.2 (rawSymbolSize * f.sections.length)
  let off2 := add32 off1 4
  let c := scanOffsets (fun t => t.length + 1) f.strings off2
  ⟨a.1, b.1, b.2, c.1, add32 (sub32 c.2 off2) 4⟩

/-- The string-table offset recorded for a long name: walk the stored names
and their assigned offsets in parallel (the stringTable map keyed by name). -/
def lookupOffset : List (List Nat) → List Nat → List Nat → Nat
  | [], _, _ => 0
  | _, [], _ => 0
  | t :: ts, o :: os, name => if t == name then o else lookupOffset ts os name

def File.strOffset (f : File) (name : List Nat) : Nat :=
  lookupOffset f.strings f.freeze.stringOffsets name

/-- copy(name[:8], src): the 8-byte field, truncating or zero-padding. -/
def copy8 (l : List Nat) : List Nat := l.take 8 ++ List.replicate (8 - l.length) 0

/-- Decimal digit expansion worker; the fuel bounds the digit count. -/
def decDigitsCore : Nat → Nat → List Nat
  | 0, _ => []
  | fuel + 1, n => if n = 0 then [] else decDigitsCore fuel (n / 10) ++ [48 + n % 10]

/-- The decimal digits of n in ASCII, most significant first; ten digits of
fuel cover every uint32 value the offset can take. -/
def decimalDigits (n : Nat) : List Nat :=
  if n = 0 then [48] else decDigitsCore 10 n

/-- fmt.Sprintf of slash followed by the decimal offset, as bytes. -/
def slashName (off : Nat) : List Nat := 47 :: decimalDigits off

/-- The rawFileHeader record: machine 0x14c, section count, zero timestamp,
symbol table pointer, symbol count, zero optional-header size,
characteristics 0x0100. -/
def fileHeaderBytes (f : File) (l : Layout) : List Nat :=
  u16le 0x14c ++ u16le f.sections.length ++ u32le 0 ++ u32le l.symbolsOffset
    ++ u32le f.sections.length ++ u16le 0 ++ u16le 0x0100

/-- One rawSectionHeader record. -/
def sectionHeaderBytes (f : File) (s : CSection) (dOff rOff : Nat) : List Nat :=
  (if s.name.length > 8 then copy8 (slashName (f.strOffset s.name)) else copy8 s.name)
    ++ u32le s.secSize ++ u32le dOff ++ u32le rOff
    ++ u16le s.relocs.length ++ u32le 0x40000040

/-- The section-header records, walking sections and their two offset lists
in step. -/
def sectionHeaderChunks (f : File) :
    List CSection → List Nat → List Nat → List Chunk
  | s :: ss, dOff :: dos, rOff :: ros =>
    (sectionHeaderBytes f s dOff rOff, none) :: sectionHeaderChunks f ss dos ros
  | _, _, _ => []

/-- One rawRelocation record: virtual address, owning section's symbol
index, and the architecture-selected type code. -/
def relocRecord (mt i va : Nat) : List Nat := u32le va ++ u32le i ++ u16le mt

/-- The relocation records of all sections, grouped by section in order. -/
def relocChunksFrom (mt : Nat) : Nat → List CSection → List Chunk
  | _, [] => []
  | i, s :: ss =>
    s.relocs.map (fun va => (relocRecord mt i va, (none : Option WTag)))
      ++ relocChunksFrom mt (i + 1) ss

/-- One rawSymbol record: name (long names: 4 zero bytes then the binary
string-table offset), zero value, 1-based section number, zero type,
storage class 3, zero aux count. -/
def symbolRecord (f : File) (i : Nat) (s : CSection) : List Nat :=
  (if s.name.length > 8 then List.replicate 4 0 ++ u32le (f.strOffset s.name)
    else copy8 s.name)
    ++ u32le 0 ++ u16le (i + 1) ++ u16le 0 ++ [3, 0]

def symbolChunksFrom (f : File) : Nat → List CSection → List Chunk
  | _, [] => []
  | i, s :: ss => (symbolRecord f i s, none) :: symbolChunksFrom f (i + 1) ss

/-- WriteTo: freeze, then header, section headers, section data, relocation
records, symbols, string table size, string table; every record write's
error is returned unwrapped. -/
def coffPlan (f : File) : List Chunk :=
  let l := f.freeze
  (fileHeaderBytes f l, none)
    :: (sectionHeaderChunks f f.sections l.dataOffsets l.relocationsOffsets
      ++ ((f.sections.map fun s => (s.body, (none : Option WTag)))
      ++ (relocChunksFrom f.machineType 0 f.sections
      ++ (symbolChunksFrom f 0 f.sections
      ++ ((u32le l.stringTableSize, (none : Option WTag))
        :: f.strings.map fun t => (t ++ [0], (none : Option WTag)))))))

/-- The bytes a successful container WriteTo produces. -/
def writeToBytes (f : File) : List Nat := (coffPlan f).flatMap (·.1)

/-- WriteTo against a destination accepting cap bytes. -/
def File.writeTo (f : File) (cap : Nat) : Nat × Option WErr × List Nat :=
  execWrites (coffPlan f) cap

/-- The container built by adding sections in order to a new file; a failed
add leaves the file unchanged. -/
def addSections (f : File) : List CSection → File
  | [] => f
  | s :: ss =>
    match f.addSection s with
    | .ok f' => addSections f' ss
    | .error _ => addSections f ss

/-- Total byte length of the section bodies as written. -/
def sumBodies (f : File) : Nat := (f.sections.map fun s => s.body.length).sum

/-- Total number of relocation records written. -/
def numRelocs (f : File) : Nat := (f.sections.map fun s => s.relocs.length).sum

/-- Byte offset of the first relocation record in the output. -/
def relocStart (f : File) : Nat :=
  rawFileHeaderSize + rawSectionHeaderSize * f.sections.length + sumBodies f

/-- The written relocation records (10 bytes each), grouped by section. -/
def relocRecordList (mt : Nat) : Nat → List CSection → List (List Nat)
  | _, [] => []
  | i, s :: ss => s.relocs.map (relocRecord mt i) ++ relocRecordList mt (i + 1) ss

/-- The first eight bytes of each relocation record (virtual address and
symbol index), independent of the selected architecture. -/
def relocPrefixList : Nat → List CSection → List (List Nat)
  | _, [] => []
  | i, s :: ss => s.relocs.map (fun va => u32le va ++ u32le i) ++ relocPrefixList (i + 1) ss

theorem relocRecordList_eq_map (mt : Nat) :
    ∀ (i : Nat) (ss : List CSection),
      relocRecordList mt i ss = (relocPrefixList i ss).map (· ++ u16le mt) := by
  intro i ss
  induction ss generalizing i with
  | nil => rfl
  | cons s rest ih =>
    simp only [relocRecordList, relocPrefixList, List.map_append, List.map_map, ih]
    have hmap : List.map (relocRecord mt i) s.relocs
        = List.map ((· ++ u16le mt) ∘ fun va => u32le va ++ u32le i) s.relocs := by
      apply List.map_congr_left
      intro va _
      simp [relocRecord, Function.comp, List.append_assoc]
    rw [hmap]

theorem relocPrefixList_mem_length :
    ∀ (i : Nat) (ss : List CSection) (p : List Nat), p ∈ relocPrefixList i ss →
      p.length = 8 := by
  intro i ss
  induction ss generalizing i with
  | nil => intro p hp; simp [relocPrefixList] at hp
  | cons s rest ih =>
    intro p hp
    rcases List.mem_append.1 hp with hp | hp
    · obtain ⟨va, _, rfl⟩ := List.mem_map.1 hp
      simp [u32le]
    · exact ih _ p hp

theorem relocPrefixList_length :
    ∀ (i : Nat) (ss : List CSection),
      (relocPrefixList i ss).length = (ss.map fun s => s.relocs.length).sum := by
  intro i ss
  induction ss generalizing i with
  | nil => rfl
  | cons s rest ih => simp [relocPrefixList, ih]

theorem chunkBytes_relocChunks (mt : Nat) :
    ∀ (i : Nat) (ss : List CSection),
      chunkBytes (relocChunksFrom mt i ss) = (relocRecordList mt i ss).flatten := by
  intro i ss
  induction ss generalizing i with
  | nil => rfl
  | cons s rest ih =>
    simp only [relocChunksFrom, relocRecordList, chunkBytes_append, ih,
      List.flatten_append]
    congr 1
    simp only [chunkBytes, List.flatMap_map, List.flatMap_def]
    congr 1
    rw [List.map_map]
    apply List.map_congr_left
    intro va _
    rfl

/-- The output decomposed into its six serialization segments. -/
def headerSeg (f : File) : List Nat := fileHeaderBytes f f.freeze

def shSeg (f : File) : List Nat :=
  chunkBytes (sectionHeaderChunks f f.sections f.freeze.dataOffsets
    f.freeze.relocationsOffsets)

def bodySeg (f : File) : List Nat :=
  chunkBytes (f.sections.map fun s => (s.body, (none : Option WTag)))

def relocSeg (f : File) : List Nat :=
  chunkBytes (relocChunksFrom f.machineType 0 f.sections)

def symSeg (f : File) : List Nat := chunkBytes (symbolChunksFrom f 0 f.sections)

def strSeg (f : File) : List Nat :=
  u32le f.freeze.stringTableSize ++ chunkBytes (f.strings.map fun t => (t ++ [0],
    (none : Option WTag)))

theorem writeToBytes_decomp (f : File) :
    writeToBytes f = headerSeg f ++ (shSeg f ++ (bodySeg f ++ (relocSeg f
      ++ (symSeg f ++ strSeg f)))) := by
  simp only [writeToBytes, coffPlan, headerSeg, shSeg, bodySeg, relocSeg, symSeg, strSeg,
    chunkBytes, List.flatMap_cons, List.flatMap_append]

/-- Everything before the relocation records. -/
def preSeg (f : File) : List Nat := headerSeg f ++ shSeg f ++ bodySeg f

theorem writeToBytes_decomp2 (f : File) :
    writeToBytes f = preSeg f ++ (relocSeg f ++ (symSeg f ++ strSeg f)) := by
  rw [writeToBytes_decomp, preSeg]
  simp [List.append_assoc]

theorem headerSeg_length (f : File) : (headerSeg f).length = rawFileHeaderSize := by
  simp [headerSeg, fileHeaderBytes, u16le, u32le, rawFileHeaderSize]

theorem copy8_length (l : List Nat) : (copy8 l).length = 8 := by
  simp [copy8]
  omega

theorem sectionHeaderBytes_length (f : File) (s : CSection) (a b : Nat) :
    (sectionHeaderBytes f s a b).length = rawSectionHeaderSize := by
  unfold sectionHeaderBytes
  split <;> simp [copy8_length, u16le, u32le, rawSectionHeaderSize]

theorem scanOffsets_length {α : Type} (g : α → Nat) :
    ∀ (xs : List α) (off : Nat), ((scanOffsets g xs off).1).length = xs.length := by
  intro xs
  induction xs with
  | nil => intro off; rfl
  | cons x rest ih => intro off; simp [scanOffsets, ih]

theorem freeze_dataOffsets_length (f : File) :
    f.freeze.dataOffsets.length = f.sections.length := by
  simp [File.freeze, scanOffsets_length]

theorem freeze_relocationsOffsets_length (f : File) :
    f.freeze.relocationsOffsets.length = f.sections.length := by
  simp [File.freeze, scanOffsets_length]

theorem freeze_stringOffsets_length (f : File) :
    f.freeze.stringOffsets.length = f.strings.length := by
  simp [File.freeze, scanOffsets_length]

theorem sectionHeaderChunks_bytes_length (f : File) :
    ∀ (ss : List CSection) (dos ros : List Nat), dos.length = ss.length →
      ros.length = ss.length →
      (chunkBytes (sectionHeaderChunks f ss dos ros)).length
        = rawSectionHeaderSize * ss.length := by
  intro ss
  induction ss with
  | nil => intro dos ros _ _; cases dos <;> cases ros <;> rfl
  | cons s rest ih =>
    intro dos ros hd hr
    match dos, hd with
    | d0 :: dos, hd =>
      match ros, hr with
      | r0 :: ros, hr =>
        simp only [sectionHeaderChunks, chunkBytes_cons, List.length_append,
          sectionHeaderBytes_length,
          ih dos ros (by simpa using hd) (by simpa using hr), List.length_cons]
        ring

theorem shSeg_length (f : File) :
    (shSeg f).length = rawSectionHeaderSize * f.sections.length :=
  sectionHeaderChunks_bytes_length f f.sections _ _ (freeze_dataOffsets_length f)
    (freeze_relocationsOffsets_length f)

theorem bodySeg_length (f : File) : (bodySeg f).length = sumBodies f := by
  simp only [bodySeg, sumBodies, chunkBytes]
  rw [List.flatMap_map, List.flatMap_def, List.length_flatten, List.map_map]
  rfl

theorem flatten_fixed_length {α : Type} (w : Nat) :
    ∀ (L : List (List α)), (∀ r ∈ L, r.length = w) →
      L.flatten.length = w * L.length := by
  intro L
  induction L with
  | nil => intro _; simp
  | cons r rest ih =>
    intro h
    simp only [List.flatten_cons, List.length_append, h r (by simp),
      ih (fun x hx => h x (by simp [hx])), List.length_cons]
    ring

theorem relocRecordList_mem_length (mt i : Nat) (ss : List CSection) :
    ∀ r ∈ relocRecordList mt i ss, r.length = 10 := by
  intro r hr
  rw [relocRecordList_eq_map] at hr
  obtain ⟨p, hp, rfl⟩ := List.mem_map.1 hr
  simp [relocPrefixList_mem_length i ss p hp, u16le]

theorem relocRecordList_length (mt i : Nat) (ss : List CSection) :
    (relocRecordList mt i ss).length = (ss.map fun s => s.relocs.length).sum := by
  rw [relocRecordList_eq_map, List.length_map, relocPrefixList_length]

theorem relocSeg_length (f : File) : (relocSeg f).length = 10 * numRelocs f := by
  rw [relocSeg, chunkBytes_relocChunks, flatten_fixed_length 10 _
    (relocRecordList_mem_length _ _ _), relocRecordList_length]
  rfl

theorem preSeg_length (f : File) : (preSeg f).length = relocStart f := by
  simp [preSeg, relocStart, headerSeg_length, shSeg_length, bodySeg_length]
  omega

theorem flatten_fixed_drop {α : Type} (w : Nat) :
    ∀ (L : List (List α)) (k : Nat), (∀ r ∈ L, r.length = w) → k < L.length →
      L.flatten.drop (w * k) = L.getD k [] ++ (L.drop (k + 1)).flatten := by
  intro L
  induction L with
  | nil => intro k _ hk; simp at hk
  | cons r rest ih =>
    intro k h hk
    cases k with
    | zero => simp [List.flatten_cons]
    | succ k' =>
      have hr : r.length = w := h r (by simp)
      have : w * (k' + 1) = r.length + w * k' := by rw [hr]; ring
      rw [List.flatten_cons, this, List.drop_append]
      simpa [List.getD] using ih k' (fun x hx => h x (by simp [hx]))
        (by simpa using hk)

/-- The k-th relocation record in the relocation segment splits into its
8 arch-independent bytes followed by the 2-byte type code. -/
theorem relocSeg_drop (f : File) (k : Nat) (hk : k < numRelocs f) :
    (relocSeg f).drop (10 * k + 8)
      = u16le f.machineType
        ++ ((relocRecordList f.machineType 0 f.sections).drop (k + 1)).flatten := by
  have hlen : ∀ r ∈ relocRecordList f.machineType 0 f.sections, r.length = 10 :=
    relocRecordList_mem_length _ _ _
  have hcount : (relocRecordList f.machineType 0 f.sections).length = numRelocs f := by
    rw [relocRecordList_length]; rfl
  have hkL : k < (relocRecordList f.machineType 0 f.sections).length := by
    rw [hcount]; exact hk
  have hrecmem : (relocRecordList f.machineType 0 f.sections).getD k []
      ∈ relocRecordList f.machineType 0 f.sections := by
    rw [List.getD_eq_getElem?_getD, List.getElem?_eq_getElem hkL, Option.getD_some]
    exact List.getElem_mem hkL
  have hkP : k < (relocPrefixList 0 f.sections).length := by
    rw [relocPrefixList_length]; exact hk
  have hpmem : (relocPrefixList 0 f.sections).getD k [] ∈ relocPrefixList 0 f.sections := by
    rw [List.getD_eq_getElem?_getD, List.getElem?_eq_getElem hkP, Option.getD_some]
    exact List.getElem_mem hkP
  have hp8 : ((relocPrefixList 0 f.sections).getD k []).length = 8 :=
    relocPrefixList_mem_length _ _ _ hpmem
  have hrec : (relocRecordList f.machineType 0 f.sections).getD k []
      = (relocPrefixList 0 f.sections).getD k [] ++ u16le f.machineType := by
    rw [relocRecordList_eq_map]
    rw [List.getD_eq_getElem?_getD, List.getElem?_map, List.getElem?_eq_getElem hkP]
    rw [List.getD_eq_getElem?_getD, List.getElem?_eq_getElem hkP]
    rfl
  rw [relocSeg, chunkBytes_relocChunks]
  rw [← List.drop_drop 8 (10 * k)]
  rw [flatten_fixed_drop 10 _ k hlen hkL]
  rw [List.drop_append_of_le_length (by rw [hlen _ hrecmem]; omega)]
  rw [hrec, ← hp8, List.drop_left]

/-- The 2-byte type field of the k-th written relocation record is exactly
the container's architecture-selected type code. -/
theorem reloc_type_field (f : File) (k : Nat) (hk : k < numRelocs f) :
    ((writeToBytes f).drop (relocStart f + (10 * k + 8))).take 2
      = u16le f.machineType := by
  rw [writeToBytes_decomp2, ← preSeg_length f, List.drop_append]
  have h10 : 10 * k + 8 ≤ (relocSeg f).length := by
    rw [relocSeg_length]; omega
  rw [List.drop_append_of_le_length h10, relocSeg_drop f k hk, List.append_assoc]
  rw [show (2 : Nat) = (u16le f.machineType).length from rfl, List.take_left]

/-- The machine field (first two bytes) of every written file header. -/
theorem writeToBytes_take2 (f : File) : (writeToBytes f).take 2 = u16le 0x14c := by
  rw [writeToBytes_decomp]
  simp [headerSeg, fileHeaderBytes, u16le, List.append_assoc]

theorem addSection_arch (f : File) (s : CSection) (f' : File)
    (h : f.addSection s = .ok f') : f'.arch = f.arch ∧ f'.machineType = f.machineType := by
  simp only [File.addSection] at h
  split at h
  · cases h
  · split at h
    · split at h
      · obtain rfl : _ = f' := by simpa using h
        exact ⟨rfl, rfl⟩
      · obtain rfl : _ = f' := by simpa using h
        exact ⟨rfl, rfl⟩
    · obtain rfl : _ = f' := by simpa using h
      exact ⟨rfl, rfl⟩

theorem addSections_arch (l : List CSection) :
    ∀ f : File, (addSections f l).arch = f.arch
      ∧ (addSections f l).machineType = f.machineType := by
  induction l with
  | nil => intro f; exact ⟨rfl, rfl⟩
  | cons s rest ih =>
    intro f
    rw [addSections]
    cases hadd : f.addSection s with
    | ok f' =>
      have ha := addSection_arch f s f' hadd
      exact ⟨(ih f').1.trans ha.1, (ih f').2.trans ha.2⟩
    | error e => exact ih f

/-- The 2-byte type fields of all written relocation records, in order. -/
def typeFieldsList (f : File) : List (List Nat) :=
  (List.range (numRelocs f)).map fun k =>
    ((writeToBytes f).drop (relocStart f + (10 * k + 8))).take 2

theorem typeFieldsList_const (f : File) :
    typeFieldsList f = List.replicate (numRelocs f) (u16le f.machineType) := by
  rw [List.eq_replicate_iff]
  constructor
  · simp [typeFieldsList]
  · intro b hb
    obtain ⟨k, hk, rfl⟩ := List.mem_map.1 hb
    exact reloc_type_field f k (List.mem_range.1 hk)

theorem setArch_ok (f : File) (a : String) (f' : File) (h : f.setArch a = .ok f') :
    f'.sections = f.sections ∧ f'.strings = f.strings := by
  simp only [File.setArch] at h
  split at h
  · obtain rfl : _ = f' := by simpa using h
    exact ⟨rfl, rfl⟩
  · split at h
    · obtain rfl : _ = f' := by simpa using h
      exact ⟨rfl, rfl⟩
    · split at h
      · obtain rfl : _ = f' := by simpa using h
        exact ⟨rfl, rfl⟩
      · cases h

theorem freeze_congr (f1 f2 : File) (hs : f1.sections = f2.sections)
    (ht : f1.strings = f2.strings) : f1.freeze = f2.freeze := by
  simp only [File.freeze, hs, ht]

theorem strOffset_congr (f1 f2 : File) (hs : f1.sections = f2.sections)
    (ht : f1.strings = f2.strings) (n : List Nat) : f1.strOffset n = f2.strOffset n := by
  simp only [File.strOffset, ht, freeze_congr f1 f2 hs ht]

theorem sectionHeaderBytes_congr (f1 f2 : File) (hs : f1.sections = f2.sections)
    (ht : f1.strings = f2.strings) (s : CSection) (a b : Nat) :
    sectionHeaderBytes f1 s a b = sectionHeaderBytes f2 s a b := by
  simp only [sectionHeaderBytes, strOffset_congr f1 f2 hs ht]

theorem sectionHeaderChunks_congr (f1 f2 : File) (hs : f1.sections = f2.sections)
    (ht : f1.strings = f2.strings) :
    ∀ (ss : List CSection) (dos ros : List Nat),
      sectionHeaderChunks f1 ss dos ros = sectionHeaderChunks f2 ss dos ros := by
  intro ss
  induction ss with
  | nil => intro dos ros; cases dos <;> cases ros <;> rfl
  | cons s rest ih =>
    intro dos ros
    cases dos with
    | nil => rfl
    | cons d0 dos =>
      cases ros with
      | nil => rfl
      | cons r0 ros =>
        simp only [sectionHeaderChunks, sectionHeaderBytes_congr f1 f2 hs ht, ih]

theorem symbolChunksFrom_congr (f1 f2 : File) (hs : f1.sections = f2.sections)
    (ht : f1.strings = f2.strings) :
    ∀ (i : Nat) (ss : List CSection), symbolChunksFrom f1 i ss = symbolChunksFrom f2 i ss := by
  intro i ss
  induction ss generalizing i with
  | nil => rfl
  | cons s rest ih =>
    simp only [symbolChunksFrom, symbolRecord, strOffset_congr f1 f2 hs ht, ih]

theorem preSeg_congr (f1 f2 : File) (hs : f1.sections = f2.sections)
    (ht : f1.strings = f2.strings) : preSeg f1 = preSeg f2 := by
  simp only [preSeg, headerSeg, fileHeaderBytes, freeze_congr f1 f2 hs ht, hs,
    shSeg, sectionHeaderChunks_congr f1 f2 hs ht, bodySeg]

theorem symSeg_congr (f1 f2 : File) (hs : f1.sections = f2.sections)
    (ht : f1.strings = f2.strings) : symSeg f1 = symSeg f2 := by
  simp only [symSeg, symbolChunksFrom_congr f1 f2 hs ht, hs]

theorem strSeg_congr (f1 f2 : File) (hs : f1.sections = f2.sections)
    (ht : f1.strings = f2.strings) : strSeg f1 = strSeg f2 := by
  simp only [strSeg, freeze_congr f1 f2 hs ht, ht]

/-- The relocation segment of f, with its type-code bytes abstracted: the
8-byte arch-independent record prefixes. -/
theorem relocSeg_eq_flatten (f : File) :
    relocSeg f = ((relocPrefixList 0 f.sections).map
      (· ++ u16le f.machineType)).flatten := by
  rw [relocSeg, chunkBytes_relocChunks, relocRecordList_eq_map]

theorem map_type_length (ps : List (List Nat)) (hps : ∀ p ∈ ps, p.length = 8) (mt : Nat) :
    ((ps.map (· ++ u16le mt)).flatten).length = 10 * ps.length := by
  rw [flatten_fixed_length 10]
  · simp
  · intro r hr
    obtain ⟨p, hp, rfl⟩ := List.mem_map.1 hr
    simp [hps p hp, u16le]

/-- Two flattened relocation-record lists with the same prefixes agree at
every byte position that is not a type-field byte (position mod 10 below 8). -/
theorem flatten_map_type_get (ps : List (List Nat)) (hps : ∀ p ∈ ps, p.length = 8)
    (mt1 mt2 : Nat) :
    ∀ r : Nat, r % 10 ≠ 8 → r % 10 ≠ 9 →
      ((ps.map (· ++ u16le mt1)).flatten)[r]?
        = ((ps.map (· ++ u16le mt2)).flatten)[r]? := by
  induction ps with
  | nil => intro r _ _; rfl
  | cons p rest ih =>
    intro r h8 h9
    have hp : p.length = 8 := hps p (by simp)
    have hhead : ∀ mt : Nat, (p ++ u16le mt).length = 10 := by
      intro mt; simp [hp, u16le]
    simp only [List.map_cons, List.flatten_cons]
    by_cases hr : r < 10
    · have hr8 : r < 8 := by omega
      have h1 : r < (p ++ u16le mt1).length := by rw [hhead]; omega
      have h2 : r < (p ++ u16le mt2).length := by rw [hhead]; omega
      have hrp : r < p.length := by omega
      rw [List.getElem?_append_left h1, List.getElem?_append_left h2,
        List.getElem?_append_left hrp, List.getElem?_append_left hrp]
    · have h1 : (p ++ u16le mt1).length ≤ r := by rw [hhead]; omega
      have h2 : (p ++ u16le mt2).length ≤ r := by rw [hhead]; omega
      rw [List.getElem?_append_right h1, List.getElem?_append_right h2, hhead, hhead]
      exact ih (fun q hq => hps q (by simp [hq])) (r - 10)
        (by omega) (by omega)

/-- Bool test: j is one of the two type-code bytes of some relocation record. -/
def typePosB (f : File) (j : Nat) : Bool :=
  decide (relocStart f ≤ j) && decide (j - relocStart f < 10 * numRelocs f)
    && (decide ((j - relocStart f) % 10 = 8) || decide ((j - relocStart f) % 10 = 9))

/-- The output bytes with every relocation type-code byte masked to zero. -/
def maskTypeBytes (f : File) (l : List Nat) : List Nat :=
  (List.range l.length).map fun j => if typePosB f j then 0 else l.getD j 0

theorem numRelocs_congr (f1 f2 : File) (hs : f1.sections = f2.sections) :
    numRelocs f1 = numRelocs f2 := by
  simp [numRelocs, hs]

theorem relocStart_congr (f1 f2 : File) (hs : f1.sections = f2.sections) :
    relocStart f1 = relocStart f2 := by
  simp [relocStart, sumBodies, hs]

/-- Core of C4: with identical sections and strings, the outputs differ at
most at type-code byte positions. -/
theorem writeToBytes_diff_only_type (f1 f2 : File) (hs : f1.sections = f2.sections)
    (ht : f1.strings = f2.strings) :
    (writeToBytes f1).length = (writeToBytes f2).length ∧
      ∀ j : Nat, typePosB f1 j = false →
        (writeToBytes f1).getD j 0 = (writeToBytes f2).getD j 0 := by
  have hps1 : ∀ p ∈ relocPrefixList 0 f1.sections, p.length = 8 :=
    relocPrefixList_mem_length 0 f1.sections
  have hpre := preSeg_congr f1 f2 hs ht
  have hsym := symSeg_congr f1 f2 hs ht
  have hstr := strSeg_congr f1 f2 hs ht
  have hnum := numRelocs_congr f1 f2 hs
  have hrs := relocStart_congr f1 f2 hs
  have hr1 : (relocSeg f1).length = 10 * numRelocs f1 := relocSeg_length f1
  have hr2 : (relocSeg f2).length = 10 * numRelocs f2 := relocSeg_length f2
  constructor
  · rw [writeToBytes_decomp2, writeToBytes_decomp2]
    simp [hpre, hsym, hstr, hr1, hr2, hnum]
  · intro j hpos
    rw [writeToBytes_decomp2, writeToBytes_decomp2, ← hpre, ← hsym, ← hstr]
    rw [List.getD_eq_getElem?_getD, List.getD_eq_getElem?_getD]
    simp only [List.getElem?_append, hr1, hr2, ← hnum]
    by_cases hj : j < (preSeg f1).length
    · simp only [if_pos hj]
    · simp only [if_neg hj]
      by_cases hin : j - (preSeg f1).length < 10 * numRelocs f1
      · simp only [if_pos hin]
        have hjstart : relocStart f1 ≤ j := by rw [← preSeg_length f1]; omega
        have hreq : j - relocStart f1 = j - (preSeg f1).length := by
          rw [preSeg_length f1]
        have hmod : (j - (preSeg f1).length) % 10 ≠ 8
            ∧ (j - (preSeg f1).length) % 10 ≠ 9 := by
          rw [typePosB] at hpos
          simp only [Bool.and_eq_false_iff, Bool.or_eq_false_iff,
            decide_eq_false_iff_not] at hpos
          rcases hpos with (hpos | hpos) | hpos
          · exact absurd hjstart hpos
          · exact absurd (by rw [hreq]; exact hin) hpos
          · rw [hreq] at hpos
            exact ⟨hpos.1, hpos.2⟩
        rw [relocSeg_eq_flatten, relocSeg_eq_flatten, hs]
        rw [flatten_map_type_get (relocPrefixList 0 f2.sections)
          (relocPrefixList_mem_length 0 f2.sections) f1.machineType f2.machineType
          (j - (preSeg f1).length) hmod.1 hmod.2]
      · simp only [if_neg hin]

theorem maskTypeBytes_eq (f1 f2 : File) (hs : f1.sections = f2.sections)
    (ht : f1.strings = f2.strings) :
    maskTypeBytes f1 (writeToBytes f1) = maskTypeBytes f1 (writeToBytes f2) := by
  have h := writeToBytes_diff_only_type f1 f2 hs ht
  rw [maskTypeBytes, maskTypeBytes, h.1]
  apply List.map_congr_left
  intro j _
  by_cases hpos : typePosB f1 j
  · simp [hpos]
  · have hfalse : typePosB f1 j = false := Bool.eq_false_iff.mpr hpos
    have hval := h.2 j hfalse
    rw [List.getD_eq_getElem?_getD, List.getD_eq_getElem?_getD] at hval
    simp [hfalse, hval]

theorem symbolRecord_length (f : File) (i : Nat) (s : CSection) :
    (symbolRecord f i s).length = rawSymbolSize := by
  rw [symbolRecord]
  by_cases h : s.name.length > 8
  · simp [if_pos h, u32le, u16le, rawSymbolSize]
  · simp [if_neg h, u32le, u16le, copy8_length, rawSymbolSize]

theorem symSeg_length (f : File) :
    (symSeg f).length = rawSymbolSize * f.sections.length := by
  rw [symSeg]
  suffices h : ∀ (i : Nat) (ss : List CSection),
      (chunkBytes (symbolChunksFrom f i ss)).length = rawSymbolSize * ss.length from
    h 0 f.sections
  intro i ss
  induction ss generalizing i with
  | nil => rfl
  | cons s rest ih =>
    simp only [symbolChunksFrom, chunkBytes_cons, List.length_append,
      symbolRecord_length, ih, List.length_cons]
    ring

theorem copy8_of_le (l : List Nat) (h : l.length ≤ 8) :
    copy8 l = l ++ List.replicate (8 - l.length) 0 := by
  rw [copy8, List.take_of_length_le h]

/-- The 8-byte name field of the section header belonging to the section at
position pre.length: for a long name it is the (possibly truncated)
slash-decimal string-table reference. -/
theorem shChunks_name_field (f : File) :
    ∀ (pre : List CSection) (s : CSection) (post : List CSection) (dos ros rest : List Nat),
      (pre ++ s :: post).length ≤ dos.length →
      (pre ++ s :: post).length ≤ ros.length →
      8 < s.name.length →
      ((chunkBytes (sectionHeaderChunks f (pre ++ s :: post) dos ros) ++ rest).drop
          (rawSectionHeaderSize * pre.length)).take 8
        = copy8 (slashName (f.strOffset s.name)) := by
  intro pre
  induction pre with
  | nil =>
    intro s post dos ros rest hd hr hlong
    match dos, ros with
    | [], _ => simp at hd
    | _ :: _, [] => simp at hr
    | d :: dos', r :: ros' =>
      simp only [List.nil_append, sectionHeaderChunks, chunkBytes_cons, List.length_nil,
        Nat.mul_zero, List.drop_zero, List.append_assoc]
      rw [sectionHeaderBytes, if_pos hlong]
      simp only [List.append_assoc]
      exact List.take_left' (copy8_length _)
  | cons p pre' ih =>
    intro s post dos ros rest hd hr hlong
    match dos, ros with
    | [], _ => simp at hd
    | _ :: _, [] => simp at hr
    | d :: dos', r :: ros' =>
      simp only [List.cons_append, sectionHeaderChunks, chunkBytes_cons, List.length_cons,
        List.append_assoc]
      have h26 : rawSectionHeaderSize * (pre'.length + 1)
          = (sectionHeaderBytes f p d r).length + rawSectionHeaderSize * pre'.length := by
        rw [sectionHeaderBytes_length]; ring
      rw [h26, List.drop_append]
      have hd' : (pre' ++ s :: post).length ≤ dos'.length := by
        simp at hd ⊢; omega
      have hr' : (pre' ++ s :: post).length ≤ ros'.length := by
        simp at hr ⊢; omega
      exact ih s post dos' ros' rest hd' hr' hlong

theorem sum_map_mul (c : Nat) {α : Type} (g : α → Nat) (l : List α) :
    (l.map fun x => c * g x).sum = c * (l.map g).sum := by
  induction l with
  | nil => simp
  | cons x xs ih => simp [ih, Nat.mul_add]

theorem scanOffsets_snd {α : Type} (g : α → Nat) :
    ∀ (xs : List α) (base : Nat), base + (xs.map g).sum < 2 ^ 32 →
      (scanOffsets g xs base).2 = base + (xs.map g).sum := by
  intro xs
  induction xs with
  | nil => intro base h; simp [scanOffsets]
  | cons x xs ih =>
    intro base h
    simp only [List.map_cons, List.sum_cons] at h ⊢
    have hx : add32 base (g x) = base + g x := Nat.mod_eq_of_lt (by omega)
    simp only [scanOffsets, hx]
    rw [ih (base + g x) (by omega)]
    ring

/-- Byte offset at which the string-table data (after its 4-byte size field)
begins, when the layout does not wrap. -/
def preStrSize (f : File) : Nat :=
  rawFileHeaderSize + rawSectionHeaderSize * f.sections.length
    + (f.sections.map fun s => s.secSize).sum
    + rawRelocationSize * numRelocs f
    + rawSymbolSize * f.sections.length + 4

/-- Total layout size computed by freeze, when it does not wrap. -/
def layoutSize (f : File) : Nat :=
  preStrSize f + (f.strings.map fun t => t.length + 1).sum

theorem freeze_stringOffsets_eq (f : File) (hfit : layoutSize f < 2 ^ 32) :
    f.freeze.stringOffsets
      = (scanOffsets (fun t => t.length + 1) f.strings (preStrSize f)).1 := by
  have hsum3 : (f.sections.map fun s => rawRelocationSize * s.relocs.length).sum
      = rawRelocationSize * numRelocs f := by
    rw [numRelocs]; exact sum_map_mul rawRelocationSize _ f.sections
  have h1 : layoutSize f = preStrSize f + (f.strings.map fun t => t.length + 1).sum := rfl
  have h2 : preStrSize f = rawFileHeaderSize + rawSectionHeaderSize * f.sections.length
      + (f.sections.map fun s => s.secSize).sum + rawRelocationSize * numRelocs f
      + rawSymbolSize * f.sections.length + 4 := rfl
  rw [h1, h2] at hfit
  have h0 : add32 rawFileHeaderSize (rawSectionHeaderSize * f.sections.length)
      = rawFileHeaderSize + rawSectionHeaderSize * f.sections.length :=
    Nat.mod_eq_of_lt (by omega)
  have ha : (scanOffsets (fun s => s.secSize) f.sections
        (rawFileHeaderSize + rawSectionHeaderSize * f.sections.length)).2
      = rawFileHeaderSize + rawSectionHeaderSize * f.sections.length
        + (f.sections.map fun s => s.secSize).sum :=
    scanOffsets_snd _ _ _ (by omega)
  have hb : (scanOffsets (fun s => rawRelocationSize * s.relocs.length) f.sections
        (rawFileHeaderSize + rawSectionHeaderSize * f.sections.length
          + (f.sections.map fun s => s.secSize).sum)).2
      = rawFileHeaderSize + rawSectionHeaderSize * f.sections.length
        + (f.sections.map fun s => s.secSize).sum
        + rawRelocationSize * numRelocs f := by
    rw [scanOffsets_snd _ _ _ (by rw [hsum3]; omega), hsum3]
  have hc : add32 (rawFileHeaderSize + rawSectionHeaderSize * f.sections.length
        + (f.sections.map fun s => s.secSize).sum + rawRelocationSize * numRelocs f)
        (rawSymbolSize * f.sections.length)
      = rawFileHeaderSize + rawSectionHeaderSize * f.sections.length
        + (f.sections.map fun s => s.secSize).sum + rawRelocationSize * numRelocs f
        + rawSymbolSize * f.sections.length :=
    Nat.mod_eq_of_lt (by omega)
  have he : add32 (rawFileHeaderSize + rawSectionHeaderSize * f.sections.length
        + (f.sections.map fun s => s.secSize).sum + rawRelocationSize * numRelocs f
        + rawSymbolSize * f.sections.length) 4
      = rawFileHeaderSize + rawSectionHeaderSize * f.sections.length
        + (f.sections.map fun s => s.secSize).sum + rawRelocationSize * numRelocs f
        + rawSymbolSize * f.sections.length + 4 :=
    Nat.mod_eq_of_lt (by omega)
  simp only [File.freeze]
  rw [h0, ha, hb, hc, he, h2]

/-- Walking the stored names against their scanned offsets: the matched
name's offset is in range and the flattened null-terminated table holds
exactly the name and its terminator at that offset. -/
theorem lookup_drop (name : List Nat) :
    ∀ (ts : List (List Nat)) (base : Nat), name ∈ ts →
      base + (ts.map fun t => t.length + 1).sum < 2 ^ 32 →
      base ≤ lookupOffset ts (scanOffsets (fun t => t.length + 1) ts base).1 name ∧
      lookupOffset ts (scanOffsets (fun t => t.length + 1) ts base).1 name + (name.length + 1)
        ≤ base + (ts.map fun t => t.length + 1).sum ∧
      (((ts.map fun t => t ++ [0]).flatten).drop
          (lookupOffset ts (scanOffsets (fun t => t.length + 1) ts base).1 name - base)).take
        (name.length + 1) = name ++ [0] := by
  intro ts
  induction ts with
  | nil => intro base hmem; simp at hmem
  | cons t ts' ih =>
    intro base hmem hnw
    simp only [List.map_cons, List.sum_cons] at hnw
    cases hbeq : t == name with
    | true =>
      have hteq : t = name := eq_of_beq hbeq
      simp only [scanOffsets, lookupOffset, hbeq, if_pos]
      refine ⟨Nat.le_refl base,
        by subst hteq; simp only [List.map_cons, List.sum_cons]; omega, ?_⟩
      subst hteq
      simp only [Nat.sub_self, List.map_cons, List.flatten_cons, List.drop_zero]
      exact List.take_left' (by simp)
    | false =>
      have hne : t ≠ name := by
        intro h; rw [h] at hbeq; simp at hbeq
      have hmem' : name ∈ ts' := by
        rcases List.mem_cons.1 hmem with h | h
        · exact absurd h.symm hne
        · exact h
      have hx : add32 base (t.length + 1) = base + (t.length + 1) :=
        Nat.mod_eq_of_lt (by omega)
      have hih := ih (base + (t.length + 1)) hmem' (by omega)
      simp only [scanOffsets, lookupOffset, hbeq, if_neg, hx]
      simp only [Bool.false_eq_true, if_false]
      simp only [List.map_cons, List.sum_cons]
      refine ⟨by omega, by omega, ?_⟩
      simp only [List.flatten_cons]
      have hsplit : lookupOffset ts'
            (scanOffsets (fun t => t.length + 1) ts' (base + (t.length + 1))).1 name - base
          = (t ++ [0]).length
            + (lookupOffset ts'
              (scanOffsets (fun t => t.length + 1) ts' (base + (t.length + 1))).1 name
              - (base + (t.length + 1))) := by
        simp only [List.length_append, List.length_cons, List.length_nil]
        omega
      rw [hsplit, List.drop_append]
      exact hih.2.2

end Coff

/-- C4: changing the selected architecture changes only the 2-byte type
field of each emitted relocation record: the outputs have equal length and
agree after masking those type-field bytes. -/
theorem C4_arch_changes_only_reloc_type (f : Coff.File) (a1 a2 : String)
    (f1 f2 : Coff.File) (h1 : f.setArch a1 = .ok f1) (h2 : f.setArch a2 = .ok f2) :
    (Coff.writeToBytes f1).length = (Coff.writeToBytes f2).length ∧
      Coff.maskTypeBytes f1 (Coff.writeToBytes f1)
        = Coff.maskTypeBytes f1 (Coff.writeToBytes f2) := by
  obtain ⟨hs1, ht1⟩ := Coff.setArch_ok f a1 f1 h1
  obtain ⟨hs2, ht2⟩ := Coff.setArch_ok f a2 f2 h2
  have hs : f1.sections = f2.sections := hs1.trans hs2.symm
  have ht : f1.strings = f2.strings := ht1.trans ht2.symm
  exact ⟨(Coff.writeToBytes_diff_only_type f1 f2 hs ht).1,
    Coff.maskTypeBytes_eq f1 f2 hs ht⟩

/-- True unless the value is an unwrapped stream error. -/
def errWrapped : Option WErr → Bool
  | none => true
  | some (.wrap _ _) => true
  | some .stream => false

/-- True unless the value is a wrapped error. -/
def errUnwrapped : Option WErr → Bool
  | none => true
  | some .stream => true
  | some (.wrap _ _) => false

theorem execWrites_written (p : List Chunk) :
    ∀ cap : Nat, (execWrites p cap).1 = (execWrites p cap).2.2.length := by
  induction p with
  | nil => intro cap; rfl
  | cons c rest ih =>
    intro cap
    obtain ⟨b, t⟩ := c
    by_cases hc : b.length ≤ cap
    · simp [execWrites, hc, ih]
    · simp [execWrites, hc]

theorem execWrites_prefix (p : List Chunk) :
    ∀ cap : Nat, ∃ t, chunkBytes p = (execWrites p cap).2.2 ++ t := by
  induction p with
  | nil => intro cap; exact ⟨[], rfl⟩
  | cons c rest ih =>
    intro cap
    obtain ⟨b, t⟩ := c
    by_cases hc : b.length ≤ cap
    · obtain ⟨tl, htl⟩ := ih (cap - b.length)
      refine ⟨tl, ?_⟩
      simp [execWrites, hc, chunkBytes_cons, htl]
    · exact ⟨chunkBytes ((b, t) :: rest), by simp [execWrites, hc]⟩

theorem execWrites_take (p : List Chunk) (cap : Nat) :
    (chunkBytes p).take (execWrites p cap).2.2.length = (execWrites p cap).2.2 := by
  obtain ⟨t, ht⟩ := execWrites_prefix p cap
  rw [ht, List.take_left]

theorem execWrites_err_tagged (p : List Chunk) (h : ∀ c ∈ p, c.2.isSome = true) :
    ∀ cap : Nat, errWrapped (execWrites p cap).2.1 = true := by
  induction p with
  | nil => intro cap; rfl
  | cons c rest ih =>
    intro cap
    obtain ⟨b, t⟩ := c
    by_cases hc : b.length ≤ cap
    · simpa [execWrites, hc] using ih (fun x hx => h x (by simp [hx])) (cap - b.length)
    · have hsome := h (b, t) (by simp)
      simp only [Option.isSome_iff_exists] at hsome
      obtain ⟨tag, rfl⟩ := hsome
      simp [execWrites, hc, mkWErr, errWrapped]

theorem execWrites_err_plain (p : List Chunk) (h : ∀ c ∈ p, c.2 = none) :
    ∀ cap : Nat, errUnwrapped (execWrites p cap).2.1 = true := by
  induction p with
  | nil => intro cap; rfl
  | cons c rest ih =>
    intro cap
    obtain ⟨b, t⟩ := c
    by_cases hc : b.length ≤ cap
    · simpa [execWrites, hc] using ih (fun x hx => h x (by simp [hx])) (cap - b.length)
    · have hnone := h (b, t) (by simp)
      simp only at hnone
      subst hnone
      simp [execWrites, hc, mkWErr, errUnwrapped]

namespace Rsrc

theorem entryRecordsFrom_tagged (es : List Entry) :
    ∀ (i : Nat), ∀ c ∈ entryRecordsFrom i es, (c.2).isSome = true := by
  induction es with
  | nil => intro i c hc; simp [entryRecordsFrom] at hc
  | cons e rest ih =>
    intro i c hc
    rcases (List.mem_cons).1 hc with hc | hc
    · subst hc; rfl
    · exact ih (i + 1) c hc

theorem stringRecords_tagged (es : List Entry) :
    ∀ c ∈ stringRecords es, (c.2).isSome = true := by
  induction es with
  | nil => intro c hc; simp [stringRecords] at hc
  | cons e rest ih =>
    intro c hc
    match e with
    | .sub (.name s so) eo d =>
      rcases List.mem_append.1 hc with hc | hc
      · rcases (List.mem_cons).1 hc with hc | hc
        · subst hc; rfl
        · rcases (List.mem_cons).1 hc with hc | hc
          · subst hc; rfl
          · simp at hc
      · exact ih c hc
    | .dat (.name s so) eo de =>
      rcases List.mem_append.1 hc with hc | hc
      · rcases (List.mem_cons).1 hc with hc | hc
        · subst hc; rfl
        · rcases (List.mem_cons).1 hc with hc | hc
          · subst hc; rfl
          · simp at hc
      · exact ih c hc
    | .sub (.id i) eo d => exact ih c (by simpa [stringRecords] using hc)
    | .dat (.id i) eo de => exact ih c (by simpa [stringRecords] using hc)

theorem dataEntryRecordsFrom_tagged (es : List Entry) :
    ∀ (i : Nat), ∀ c ∈ dataEntryRecordsFrom i es, (c.2).isSome = true := by
  induction es with
  | nil => intro i c hc; simp [dataEntryRecordsFrom] at hc
  | cons e rest ih =>
    intro i c hc
    match e with
    | .dat k eo de =>
      rcases (List.mem_cons).1 hc with hc | hc
      · subst hc; rfl
      · exact ih (i + 1) c hc
    | .sub k eo d => exact ih i c (by simpa [dataEntryRecordsFrom] using hc)

theorem dataRecordsFrom_tagged (es : List Entry) :
    ∀ (i : Nat), ∀ c ∈ dataRecordsFrom i es, (c.2).isSome = true := by
  induction es with
  | nil => intro i c hc; simp [dataRecordsFrom] at hc
  | cons e rest ih =>
    intro i c hc
    match e with
    | .dat k eo de =>
      rcases (List.mem_cons).1 hc with hc | hc
      · subst hc; rfl
      · exact ih (i + 1) c hc
    | .sub k eo d => exact ih i c (by simpa [dataRecordsFrom] using hc)

mutual
theorem plan1Dir_tagged (d : Directory) : ∀ c ∈ plan1Dir d, (c.2).isSome = true := by
  match d with
  | .mk ch o ns is =>
    intro c hc
    rcases (List.mem_cons).1 hc with hc | hc
    · subst hc; rfl
    · rcases List.mem_append.1 hc with hc | hc
      · exact entryRecordsFrom_tagged (ns ++ is) 0 c hc
      · rcases List.mem_append.1 hc with hc | hc
        · exact plan1Entries_tagged ns c hc
        · exact plan1Entries_tagged is c hc

theorem plan1Entries_tagged (es : List Entry) : ∀ c ∈ plan1Entries es, (c.2).isSome = true := by
  match es with
  | [] => intro c hc; simp [plan1Entries] at hc
  | .sub k eo d :: rest =>
    intro c hc
    rcases List.mem_append.1 (by simpa [plan1Entries] using hc) with hc | hc
    · exact plan1Dir_tagged d c hc
    · exact plan1Entries_tagged rest c hc
  | .dat k eo de :: rest =>
    intro c hc
    exact plan1Entries_tagged rest c (by simpa [plan1Entries] using hc)
end

mutual
theorem plan2Dir_tagged (d : Directory) : ∀ c ∈ plan2Dir d, (c.2).isSome = true := by
  match d with
  | .mk ch o ns is =>
    intro c hc
    simp only [plan2Dir, List.mem_append] at hc
    rcases hc with hc | hc | hc
    · exact stringRecords_tagged (ns ++ is) c hc
    · exact plan2Entries_tagged ns c hc
    · exact plan2Entries_tagged is c hc

theorem plan2Entries_tagged (es : List Entry) : ∀ c ∈ plan2Entries es, (c.2).isSome = true := by
  match es with
  | [] => intro c hc; simp [plan2Entries] at hc
  | .sub k eo d :: rest =>
    intro c hc
    rcases List.mem_append.1 (by simpa [plan2Entries] using hc) with hc | hc
    · exact plan2Dir_tagged d c hc
    · exact plan2Entries_tagged rest c hc
  | .dat k eo de :: rest =>
    intro c hc
    exact plan2Entries_tagged rest c (by simpa [plan2Entries] using hc)
end

mutual
theorem plan3Dir_tagged (d : Directory) : ∀ c ∈ plan3Dir d, (c.2).isSome = true := by
  match d with
  | .mk ch o ns is =>
    intro c hc
    simp only [plan3Dir, List.mem_append] at hc
    rcases hc with hc | hc | hc
    · exact dataEntryRecordsFrom_tagged (ns ++ is) 0 c hc
    · exact plan3Entries_tagged ns c hc
    · exact plan3Entries_tagged is c hc

theorem plan3Entries_tagged (es : List Entry) : ∀ c ∈ plan3Entries es, (c.2).isSome = true := by
  match es with
  | [] => intro c hc; simp [plan3Entries] at hc
  | .sub k eo d :: rest =>
    intro c hc
    rcases List.mem_append.1 (by simpa [plan3Entries] using hc) with hc | hc
    · exact plan3Dir_tagged d c hc
    · exact plan3Entries_tagged rest c hc
  | .dat k eo de :: rest =>
    intro c hc
    exact plan3Entries_tagged rest c (by simpa [plan3Entries] using hc)
end

mutual
theorem plan4Dir_tagged (d : Directory) : ∀ c ∈ plan4Dir d, (c.2).isSome = true := by
  match d with
  | .mk ch o ns is =>
    intro c hc
    simp only [plan4Dir, List.mem_append] at hc
    rcases hc with hc | hc | hc
    · exact dataRecordsFrom_tagged (ns ++ is) 0 c hc
    · exact plan4Entries_tagged ns c hc
    · exact plan4Entries_tagged is c hc

theorem plan4Entries_tagged (es : List Entry) : ∀ c ∈ plan4Entries es, (c.2).isSome = true := by
  match es with
  | [] => intro c hc; simp [plan4Entries] at hc
  | .sub k eo d :: rest =>
    intro c hc
    rcases List.mem_append.1 (by simpa [plan4Entries] using hc) with hc | hc
    · exact plan4Dir_tagged d c hc
    · exact plan4Entries_tagged rest c hc
  | .dat k eo de :: rest =>
    intro c hc
    exact plan4Entries_tagged rest c (by simpa [plan4Entries] using hc)
end

theorem rsrcPlan_tagged (s : Section) : ∀ c ∈ rsrcPlan s, (c.2).isSome = true := by
  intro c hc
  simp only [rsrcPlan, List.mem_append] at hc
  rcases hc with ((hc | hc) | hc) | hc
  · exact plan1Dir_tagged _ c hc
  · exact plan2Dir_tagged _ c hc
  · exact plan3Dir_tagged _ c hc
  · exact plan4Dir_tagged _ c hc

end Rsrc

namespace Coff

theorem sectionHeaderChunks_untagged (f : File) :
    ∀ (ss : List CSection) (dos ros : List Nat),
      ∀ c ∈ sectionHeaderChunks f ss dos ros, c.2 = none := by
  intro ss
  induction ss with
  | nil => intro dos ros c hc; cases dos <;> cases ros <;> simp [sectionHeaderChunks] at hc
  | cons s rest ih =>
    intro dos ros c hc
    cases dos with
    | nil => simp [sectionHeaderChunks] at hc
    | cons d0 dos =>
      cases ros with
      | nil => simp [sectionHeaderChunks] at hc
      | cons r0 ros =>
        rcases (List.mem_cons).1 hc with hc | hc
        · subst hc; rfl
        · exact ih dos ros c hc

theorem relocChunksFrom_untagged (mt : Nat) :
    ∀ (i : Nat) (ss : List CSection), ∀ c ∈ relocChunksFrom mt i ss, c.2 = none := by
  intro i ss
  induction ss generalizing i with
  | nil => intro c hc; simp [relocChunksFrom] at hc
  | cons s rest ih =>
    intro c hc
    rcases List.mem_append.1 hc with hc | hc
    · obtain ⟨va, _, rfl⟩ := List.mem_map.1 hc
      rfl
    · exact ih (i + 1) c hc

theorem symbolChunksFrom_untagged (f : File) :
    ∀ (i : Nat) (ss : List CSection), ∀ c ∈ symbolChunksFrom f i ss, c.2 = none := by
  intro i ss
  induction ss generalizing i with
  | nil => intro c hc; simp [symbolChunksFrom] at hc
  | cons s rest ih =>
    intro c hc
    rcases (List.mem_cons).1 hc with hc | hc
    · subst hc; rfl
    · exact ih (i + 1) c hc

theorem coffPlan_untagged (f : File) : ∀ c ∈ coffPlan f, c.2 = none := by
  intro c hc
  rcases (List.mem_cons).1 hc with hc | hc
  · subst hc; rfl
  · rcases List.mem_append.1 hc with hc | hc
    · exact sectionHeaderChunks_untagged f _ _ _ c hc
    · rcases List.mem_append.1 hc with hc | hc
      · obtain ⟨s, _, rfl⟩ := List.mem_map.1 hc
        rfl
      · rcases List.mem_append.1 hc with hc | hc
        · exact relocChunksFrom_untagged _ 0 _ c hc
        · rcases List.mem_append.1 hc with hc | hc
          · exact symbolChunksFrom_untagged f 0 _ c hc
          · rcases (List.mem_cons).1 hc with hc | hc
            · subst hc; rfl
            · obtain ⟨t, _, rfl⟩ := List.mem_map.1 hc
              rfl

end Coff

/-- C7 (amended): on a destination failure both writers abort at the failed
record, report exactly the bytes flushed before it (a prefix of the full
output, never retracted); the resource-section writer wraps the stream error
with the record class (entry-like records carry an index, strings their
value, the directory header only its class), while the container writer
propagates the stream error unwrapped. -/
theorem C7_write_failure_behavior (s : Rsrc.Section) (f : Coff.File) (cap : Nat) :
    (s.writeTo cap).1 = (s.writeTo cap).2.2.length ∧
      (Rsrc.writeToBytes s).take (s.writeTo cap).2.2.length = (s.writeTo cap).2.2 ∧
      errWrapped (s.writeTo cap).2.1 = true ∧
      (f.writeTo cap).1 = (f.writeTo cap).2.2.length ∧
      (Coff.writeToBytes f).take (f.writeTo cap).2.2.length = (f.writeTo cap).2.2 ∧
      errUnwrapped (f.writeTo cap).2.1 = true :=
  ⟨execWrites_written _ cap, execWrites_take _ cap,
    execWrites_err_tagged _ (Rsrc.rsrcPlan_tagged s) cap,
    execWrites_written _ cap, execWrites_take _ cap,
    execWrites_err_plain _ (Coff.coffPlan_untagged f) cap⟩

/-- C7 as stated is false: the container writer returns the stream error
itself, wrapped with no record class at all (here: failing header write). -/
theorem C7_counterexample :
    (Coff.File.new.writeTo 0).2.1 = some WErr.stream ∧
      errWrapped (Coff.File.new.writeTo 0).2.1 = false :=
  ⟨rfl, rfl⟩

theorem C4_arch_changes_only_reloc_type_witness :
    (Coff.File.mk "amd64" 7 [⟨[97], 1, [0], [5]⟩] []).setArch "amd64"
        = .ok (Coff.File.mk "amd64" 3 [⟨[97], 1, [0], [5]⟩] []) ∧
      (Coff.File.mk "amd64" 7 [⟨[97], 1, [0], [5]⟩] []).setArch "i386"
        = .ok (Coff.File.mk "i386" 7 [⟨[97], 1, [0], [5]⟩] []) ∧
      ((Coff.writeToBytes (Coff.File.mk "amd64" 3 [⟨[97], 1, [0], [5]⟩] [])).length
          = (Coff.writeToBytes (Coff.File.mk "i386" 7 [⟨[97], 1, [0], [5]⟩] [])).length ∧
        Coff.maskTypeBytes (Coff.File.mk "amd64" 3 [⟨[97], 1, [0], [5]⟩] [])
            (Coff.writeToBytes (Coff.File.mk "amd64" 3 [⟨[97], 1, [0], [5]⟩] []))
          = Coff.maskTypeBytes (Coff.File.mk "amd64" 3 [⟨[97], 1, [0], [5]⟩] [])
            (Coff.writeToBytes (Coff.File.mk "i386" 7 [⟨[97], 1, [0], [5]⟩] []))) :=
  ⟨rfl, rfl,
    C4_arch_changes_only_reloc_type (Coff.File.mk "amd64" 7 [⟨[97], 1, [0], [5]⟩] [])
      "amd64" "i386" _ _ rfl rfl⟩

/-- C10: the written file header's machine field is always 0x14c
(IMAGE_FILE_MACHINE_I386), whatever architecture was selected. -/
theorem C10_machine_field_constant (f : Coff.File) (a : String) :
    (Coff.writeToBytes f).take 2 = u16le 0x14c ∧
      (Coff.writeToBytes (match f.setArch a with
        | .ok f' => f'
        | .error _ => f)).take 2 = u16le 0x14c :=
  ⟨Coff.writeToBytes_take2 f, Coff.writeToBytes_take2 _⟩

/-- C9: a container built from New without SetArch reports arch amd64, yet
every relocation record it writes carries type code 0x07 (the i386 code),
not the amd64 code 0x03. -/
theorem C9_default_arch_mismatch (l : List Coff.CSection) :
    (Coff.addSections Coff.File.new l).arch = "amd64" ∧
      Coff.typeFieldsList (Coff.addSections Coff.File.new l)
        = List.replicate (Coff.numRelocs (Coff.addSections Coff.File.new l)) (u16le 0x07) ∧
      u16le 0x07 ≠ u16le 0x03 := by
  have ha := Coff.addSections_arch l Coff.File.new
  refine ⟨ha.1, ?_, by decide⟩
  rw [Coff.typeFieldsList_const, ha.2]
  rfl

/-- C8: AddSection returns the duplicate-name error exactly when a section
with the same name is already present (the error is returned before any
mutation, so the container is unchanged); otherwise it appends the section
and, for a name longer than 8 bytes, records at most one deduplicated
string-table entry. -/
theorem C8_addSection_dup_and_dedup (f : Coff.File) (s : Coff.CSection) :
    (f.addSection s = .error "section with given name already exists" ↔
      ∃ t ∈ f.sections, t.name = s.name) ∧
    ∀ f', f.addSection s = .ok f' →
      f'.arch = f.arch ∧ f'.machineType = f.machineType ∧
      f'.sections = f.sections ++ [s] ∧
      (8 < s.name.length → s.name ∉ f.strings → f'.strings = f.strings ++ [s.name]) ∧
      (8 < s.name.length → s.name ∈ f.strings → f'.strings = f.strings) ∧
      (s.name.length ≤ 8 → f'.strings = f.strings) := by
  by_cases hdup : (f.sections.any fun t => t.name == s.name) = true
  · refine ⟨⟨fun _ => ?_, fun _ => ?_⟩, ?_⟩
    · obtain ⟨t, ht, hname⟩ := List.any_eq_true.1 hdup
      exact ⟨t, ht, by simpa using hname⟩
    · simp [Coff.File.addSection, hdup]
    · intro f' hf'
      simp [Coff.File.addSection, hdup] at hf'
  · constructor
    · constructor
      · intro he
        exfalso
        simp only [Coff.File.addSection, if_neg hdup] at he
        split at he
        · split at he
          · cases he
          · cases he
        · cases he
      · intro hex
        obtain ⟨t, ht, hname⟩ := hex
        exact absurd (List.any_eq_true.2 ⟨t, ht, by simpa using hname⟩) hdup
    · intro f' hf'
      simp only [Coff.File.addSection, if_neg hdup] at hf'
      split at hf'
      · rename_i hlen
        split at hf'
        · rename_i hc
          injection hf' with h
          subst h
          have hmem : s.name ∈ f.strings := by simpa using hc
          refine ⟨rfl, rfl, rfl, ?_, fun _ _ => rfl, ?_⟩
          · intro _ hmem'; exact absurd hmem hmem'
          · intro hle; omega
        · rename_i hc
          injection hf' with h
          subst h
          have hmem : s.name ∉ f.strings := by simpa using hc
          refine ⟨rfl, rfl, rfl, fun _ _ => rfl, ?_, ?_⟩
          · intro _ hmem'; exact absurd hmem' hmem
          · intro hle; omega
      · rename_i hlen
        injection hf' with h
        subst h
        refine ⟨rfl, rfl, rfl, ?_, ?_, fun _ => rfl⟩
        · intro h8 _; exact absurd h8 hlen
        · intro h8 _; exact absurd h8 hlen

theorem C8_addSection_dup_and_dedup_witness :
    Coff.File.new.addSection ⟨List.replicate 9 97, 0, [], []⟩
        = .ok (Coff.File.mk "amd64" 7 [⟨List.replicate 9 97, 0, [], []⟩]
          [List.replicate 9 97]) ∧
      (Coff.File.mk "amd64" 7 [⟨List.replicate 9 97, 0, [], []⟩]
          [List.replicate 9 97]).sections
        = Coff.File.new.sections ++ [⟨List.replicate 9 97, 0, [], []⟩] ∧
      (Coff.File.mk "amd64" 7 [⟨List.replicate 9 97, 0, [], []⟩]
          [List.replicate 9 97]).strings
        = Coff.File.new.strings ++ [List.replicate 9 97] := by
  have h := (C8_addSection_dup_and_dedup Coff.File.new ⟨List.replicate 9 97, 0, [], []⟩).2
    (Coff.File.mk "amd64" 7 [⟨List.replicate 9 97, 0, [], []⟩] [List.replicate 9 97])
    rfl
  exact ⟨rfl, h.2.2.1, h.2.2.2.1 (by decide) (by decide)⟩

/-- C5 (amended): a long-named section in a container whose layout fits the
32-bit cursor, whose sections each write exactly Size() bytes, and whose
slash-decimal reference fits the 8-byte field, round-trips: the header name
field holds slash followed by the decimal string-table offset (zero padded)
and the string table at that offset holds the name and a null terminator. -/
theorem C5_long_name_roundtrip (f : Coff.File) (pre post : List Coff.CSection)
    (s : Coff.CSection)
    (hsec : f.sections = pre ++ s :: post)
    (hlong : 8 < s.name.length)
    (hstr : s.name ∈ f.strings)
    (hbody : ∀ t ∈ f.sections, t.body.length = t.secSize)
    (hfit : Coff.layoutSize f < 2 ^ 32)
    (hfield : (Coff.slashName (f.strOffset s.name)).length ≤ 8) :
    ((Coff.writeToBytes f).drop
        (Coff.rawFileHeaderSize + Coff.rawSectionHeaderSize * pre.length)).take 8
      = Coff.slashName (f.strOffset s.name)
        ++ List.replicate (8 - (Coff.slashName (f.strOffset s.name)).length) 0 ∧
    ((Coff.writeToBytes f).drop (f.strOffset s.name)).take (s.name.length + 1)
      = s.name ++ [0] := by
  constructor
  · rw [Coff.writeToBytes_decomp]
    have h20 : Coff.rawFileHeaderSize + Coff.rawSectionHeaderSize * pre.length
        = (Coff.headerSeg f).length + Coff.rawSectionHeaderSize * pre.length := by
      rw [Coff.headerSeg_length]
    rw [h20, List.drop_append]
    have hsh := Coff.shChunks_name_field f pre s post f.freeze.dataOffsets
      f.freeze.relocationsOffsets
      (Coff.bodySeg f ++ (Coff.relocSeg f ++ (Coff.symSeg f ++ Coff.strSeg f)))
      (by rw [Coff.freeze_dataOffsets_length, hsec])
      (by rw [Coff.freeze_relocationsOffsets_length, hsec])
      hlong
    rw [Coff.copy8_of_le _ hfield] at hsh
    rw [Coff.shSeg, hsec]
    exact hsh
  · have hnw : Coff.preStrSize f + (f.strings.map fun t => t.length + 1).sum
        < 2 ^ 32 := hfit
    have hso : f.strOffset s.name
        = Coff.lookupOffset f.strings
            (Coff.scanOffsets (fun t => t.length + 1) f.strings (Coff.preStrSize f)).1
            s.name := by
      rw [Coff.File.strOffset, Coff.freeze_stringOffsets_eq f hfit]
    have hld := Coff.lookup_drop s.name f.strings (Coff.preStrSize f) hstr hnw
    rw [← hso] at hld
    have hw : Coff.writeToBytes f
        = (Coff.headerSeg f ++ Coff.shSeg f ++ Coff.bodySeg f ++ Coff.relocSeg f
            ++ Coff.symSeg f ++ u32le f.freeze.stringTableSize)
          ++ (f.strings.map fun t => t ++ [0]).flatten := by
      rw [Coff.writeToBytes_decomp, Coff.strSeg]
      have hfl : chunkBytes (f.strings.map fun t => (t ++ [0], (none : Option WTag)))
          = (f.strings.map fun t => t ++ [0]).flatten := by
        simp only [chunkBytes, List.flatMap_map, List.flatMap_def]
        congr 1
        rw [List.map_map]
        apply List.map_congr_left
        intro t _
        rfl
      rw [hfl]
      simp [List.append_assoc]
    have hsb : Coff.sumBodies f = (f.sections.map fun t => t.secSize).sum := by
      rw [Coff.sumBodies]
      congr 1
      exact List.map_congr_left hbody
    have hPlen : (Coff.headerSeg f ++ Coff.shSeg f ++ Coff.bodySeg f ++ Coff.relocSeg f
          ++ Coff.symSeg f ++ u32le f.freeze.stringTableSize).length
        = Coff.preStrSize f := by
      simp only [List.length_append, Coff.headerSeg_length, Coff.shSeg_length,
        Coff.bodySeg_length, Coff.relocSeg_length, Coff.symSeg_length, u32le_length]
      rw [hsb]
      simp only [Coff.preStrSize, Coff.rawFileHeaderSize, Coff.rawSectionHeaderSize,
        Coff.rawRelocationSize, Coff.rawSymbolSize]
    rw [hw]
    have hidx : f.strOffset s.name
        = (Coff.headerSeg f ++ Coff.shSeg f ++ Coff.bodySeg f ++ Coff.relocSeg f
            ++ Coff.symSeg f ++ u32le f.freeze.stringTableSize).length
          + (f.strOffset s.name - Coff.preStrSize f) := by
      rw [hPlen]
      have := hld.1
      omega
    rw [hidx, List.drop_append]
    exact hld.2.2

theorem C5_long_name_roundtrip_witness :
    ((Coff.writeToBytes (Coff.File.mk "amd64" 7 [⟨List.replicate 9 97, 3, [], [1, 2, 3]⟩]
          [List.replicate 9 97])).drop
        (Coff.rawFileHeaderSize
          + Coff.rawSectionHeaderSize * ([] : List Coff.CSection).length)).take 8
      = Coff.slashName ((Coff.File.mk "amd64" 7 [⟨List.replicate 9 97, 3, [], [1, 2, 3]⟩]
            [List.replicate 9 97]).strOffset (List.replicate 9 97))
        ++ List.replicate
          (8 - (Coff.slashName ((Coff.File.mk "amd64" 7
              [⟨List.replicate 9 97, 3, [], [1, 2, 3]⟩]
              [List.replicate 9 97]).strOffset (List.replicate 9 97))).length) 0 ∧
    ((Coff.writeToBytes (Coff.File.mk "amd64" 7 [⟨List.replicate 9 97, 3, [], [1, 2, 3]⟩]
          [List.replicate 9 97])).drop
        ((Coff.File.mk "amd64" 7 [⟨List.replicate 9 97, 3, [], [1, 2, 3]⟩]
          [List.replicate 9 97]).strOffset (List.replicate 9 97))).take
        ((List.replicate 9 97 : List Nat).length + 1)
      = List.replicate 9 97 ++ [0] :=
  C5_long_name_roundtrip
    (Coff.File.mk "amd64" 7 [⟨List.replicate 9 97, 3, [], [1, 2, 3]⟩]
      [List.replicate 9 97])
    [] [] ⟨List.replicate 9 97, 3, [], [1, 2, 3]⟩ rfl (by decide) (by decide)
    (by decide) (by decide) (by decide)

/-- C5 as stated is false: with a single long-named section whose size pushes
the string-table offset to eight decimal digits, the slash-decimal reference
is nine bytes and the 8-byte name field silently truncates it, so the header
does not hold slash followed by the full decimal offset (the header bytes
depend only on the declared sizes, not on the payload bytes). -/
theorem C5_counterexample :
    Coff.File.new.addSection ⟨List.replicate 9 97, 10000000, [], []⟩
        = .ok (Coff.File.mk "amd64" 7 [⟨List.replicate 9 97, 10000000, [], []⟩]
          [List.replicate 9 97]) ∧
      ((Coff.writeToBytes (Coff.File.mk "amd64" 7
            [⟨List.replicate 9 97, 10000000, [], []⟩] [List.replicate 9 97])).drop
          Coff.rawFileHeaderSize).take
          ((Coff.slashName ((Coff.File.mk "amd64" 7
              [⟨List.replicate 9 97, 10000000, [], []⟩]
              [List.replicate 9 97]).strOffset (List.replicate 9 97))).length)
        ≠ Coff.slashName ((Coff.File.mk "amd64" 7
            [⟨List.replicate 9 97, 10000000, [], []⟩]
            [List.replicate 9 97]).strOffset (List.replicate 9 97)) := by
  exact ⟨rfl, by decide⟩
